import Mathlib

/-!
# Verification of the RobustFlow graph-comparison engine

Shallow embedding of `src/evaluate/graph_evaluator.py`: topological-order
enumeration (`all_topological_sorts`), semantic node matching (`match_node`),
order-sensitive plan scoring (`t_eval_plan`), node-level scoring
(`t_eval_nodes`) and reachability-based graph scoring (`t_eval_graph`).

Machine floats of the source are modelled by `ℚ` (all quantities involved are
exact small rationals), Python dicts by association lists, Python sets by
`Finset`/`List` with membership-only use, and raised exceptions by `Except`.
The networkx library calls (`all_topological_sorts`, `descendants`,
`max_weight_matching`) are not part of the repository; they are modelled by
executable Lean functions faithful to their documented contracts on the
inputs the source feeds them.
-/

/-- Result triple returned by every scorer (`precision`, `recall`, `f1_score`). -/
structure ScoreResult where
  precision : ℚ
  recall_score : ℚ
  f1_score : ℚ
deriving DecidableEq

/-- Python exceptions that the evaluation entry points can raise:
`emptyMax` models `ValueError` from `max` over an empty array, `divByZero`
models `ZeroDivisionError`. -/
inductive EvalErr where
  | emptyMax : EvalErr
  | divByZero : EvalErr
deriving DecidableEq

instance {ε α : Type} [DecidableEq ε] [DecidableEq α] : DecidableEq (Except ε α)
  | .error a, .error b =>
    if h : a = b then .isTrue (congrArg Except.error h)
    else .isFalse (fun hh => h (Except.error.inj hh))
  | .error _, .ok _ => .isFalse (fun hh => Except.noConfusion hh)
  | .ok _, .error _ => .isFalse (fun hh => Except.noConfusion hh)
  | .ok a, .ok b =>
    if h : a = b then .isTrue (congrArg Except.ok h)
    else .isFalse (fun hh => h (Except.ok.inj hh))

/-- A workflow graph: ordered node labels plus directed edges given by node
indices, exactly the `{"nodes": [...], "edges": [...]}` dictionaries of the
source. -/
structure Graph where
  nodes : List String
  edges : List (ℕ × ℕ)
deriving DecidableEq

/-- The embedding port, abstracted at the similarity level: `model p g` is the
(raw, unclamped) cosine similarity `util.cos_sim` of the embeddings of the two
labels.  The source clamps it with `np.maximum(_, 0)`; that clamp is kept in
the code below. -/
def EmbedModel : Type := String → String → ℚ

/-- `np.maximum(x, 0)` on a similarity value. -/
def clampNonneg (x : ℚ) : ℚ := if x ≤ 0 then 0 else x

/-- Lookup in the Python-dict model (association list, first match). -/
def mfind (m : List (ℕ × ℤ)) (k : ℕ) : Option ℤ :=
  (m.find? (fun e => e.1 == k)).map (fun e => e.2)

/-- Membership test `k in mapping` on the dict model. -/
def hasKeyB (m : List (ℕ × ℤ)) (k : ℕ) : Bool :=
  m.any (fun e => e.1 == k)

/-- `mapping[i]` as used by the scorers; the default is never reached because
the correspondence is total over candidate indices (proved below). -/
def mval (m : List (ℕ × ℤ)) (i : ℕ) : ℤ :=
  (mfind m i).getD (-1)

/-- Dict insertion `mapping[k] = v` (update if the key exists, append
otherwise). -/
def dinsert (m : List (ℕ × ℤ)) (k : ℕ) (v : ℤ) : List (ℕ × ℤ) :=
  if hasKeyB m k then m.map (fun e => if e.1 = k then (k, v) else e)
  else m ++ [(k, v)]

/-- Inner loop of the exact-match pass: first reference index `g` (scanning
from offset `off`) whose label is byte-identical to `txt` and not yet used. -/
def findFirstUnusedFrom : ℕ → List String → List ℕ → String → Option ℕ
  | _, [], _, _ => none
  | g, t :: ts, used, txt =>
    if g ∉ used ∧ t = txt then some g else findFirstUnusedFrom (g + 1) ts used txt

/-- Phase 1 of `match_node` (greedy exact-text matching), recursing over the
candidate labels with their index `p`; returns the mapping and the used set. -/
def exactPassFrom : ℕ → List String → List String → List (ℕ × ℤ) → List ℕ →
    List (ℕ × ℤ) × List ℕ
  | _, [], _, m, u => (m, u)
  | p, t :: ts, gt, m, u =>
    match findFirstUnusedFrom 0 gt u t with
    | some g => exactPassFrom (p + 1) ts gt (m ++ [(p, (g : ℤ))]) (g :: u)
    | none => exactPassFrom (p + 1) ts gt m u

/-- The whole exact-match pass of `match_node`. -/
def exactPass (pred gt : List String) : List (ℕ × ℤ) × List ℕ :=
  exactPassFrom 0 pred gt [] []

/-- Weighted bipartite similarity edges of phase 2: one edge per
(remaining candidate, remaining reference) pair whose clamped similarity
clears the threshold, with the `1e-4 * |p - g|` positional penalty and the
reference side shifted by `len_pred`. -/
def bipartiteEdges (lp : ℕ) (thr : ℚ) (model : EmbedModel)
    (rp rg : List (ℕ × String)) : List (ℕ × ℕ × ℚ) :=
  rp.flatMap (fun pe => rg.filterMap (fun ge =>
    let score := clampNonneg (model pe.2 ge.2)
    if thr ≤ score then
      some (pe.1, lp + ge.1, score - (1 / 10000) * (((pe.1 : ℤ) - (ge.1 : ℤ)).natAbs : ℚ))
    else none))

/-- Two weighted edges are vertex-disjoint. -/
def pairDisj (e f : ℕ × ℕ × ℚ) : Prop :=
  e.1 ≠ f.1 ∧ e.1 ≠ f.2.1 ∧ e.2.1 ≠ f.1 ∧ e.2.1 ≠ f.2.1

instance (e f : ℕ × ℕ × ℚ) : Decidable (pairDisj e f) := by
  unfold pairDisj; infer_instance

/-- All matchings (vertex-disjoint edge subsets) of an edge list. -/
def matchingsOf : List (ℕ × ℕ × ℚ) → List (List (ℕ × ℕ × ℚ))
  | [] => [[]]
  | e :: es =>
    let rest := matchingsOf es
    rest ++ (rest.filter (fun M => M.all (fun f => decide (pairDisj e f)))).map
      (fun M => e :: M)

/-- Total weight of a matching. -/
def weightOf (M : List (ℕ × ℕ × ℚ)) : ℚ := (M.map (fun e => e.2.2)).sum

/-- Models `networkx.max_weight_matching` (default `maxcardinality=False`):
a maximum-weight matching of the given weighted graph, computed here by
exhaustive search; the particular tie-break is irrelevant to every property
proved below. -/
def maxWeightMatching (es : List (ℕ × ℕ × ℚ)) : List (ℕ × ℕ) :=
  ((matchingsOf es).foldl (fun best M => if weightOf best < weightOf M then M else best)
    []).map (fun e => (e.1, e.2.1))

/-- Default `match_threshold` of the source. -/
def match_threshold_default : ℚ := 3 / 5

/-- `match_node(pred_nodes, gt_nodes, sentence_model, match_threshold)`:
greedy exact matching, then threshold-gated maximum-weight semantic matching,
then `-1` for everything still unresolved. -/
def match_node (pred gt : List String) (model : EmbedModel) (thr : ℚ) :
    List (ℕ × ℤ) :=
  let ep := exactPass pred gt
  let m1 := ep.1
  if m1.length = pred.length ∧ m1.length = gt.length then m1
  else
    let remainPred := pred.enum.filter (fun e => !(hasKeyB m1 e.1))
    let remainGt := gt.enum.filter (fun e => !(ep.2.contains e.1))
    let m2 :=
      if remainPred ≠ [] ∧ remainGt ≠ [] then
        let mwm := maxWeightMatching (bipartiteEdges pred.length thr model remainPred remainGt)
        mwm.foldl (fun m uv =>
          if uv.1 < pred.length then dinsert m uv.1 ((uv.2 : ℤ) - (pred.length : ℤ))
          else dinsert m uv.2 ((uv.1 : ℤ) - (pred.length : ℤ))) m1
      else m1
    (List.range pred.length).foldl
      (fun m i => if hasKeyB m i then m else m ++ [(i, (-1 : ℤ))]) m2

/-- Number of `sentence_model.encode` invocations `match_node` performs along
its control flow: none when phase 1 already resolved everything, otherwise the
two batched calls of the similarity pass (performed only when both remainder
lists are non-empty). -/
def match_node_encode_calls (pred gt : List String) : ℕ :=
  let ep := exactPass pred gt
  if ep.1.length = pred.length ∧ ep.1.length = gt.length then 0
  else
    let remainPred := pred.enum.filter (fun e => !(hasKeyB ep.1 e.1))
    let remainGt := gt.enum.filter (fun e => !(ep.2.contains e.1))
    if remainPred ≠ [] ∧ remainGt ≠ [] then 2 else 0

/-- `t_eval_plan(pred_plan, gt_plan, eval_model, order)`.  The order-sensitive
branch runs the source's LIS dynamic program over the matched reference
indices; `dp` entries are natural numbers (the source stores them in a float
array, exactly).  Raising `max` over an empty array and the two possible zero
divisions are modelled by `Except`. -/
def t_eval_plan (pred gt : List String) (model : EmbedModel) (order : Bool) :
    Except EvalErr ScoreResult :=
  let mapping := match_node pred gt model match_threshold_default
  let len_pred := pred.length
  let len_gt := gt.length
  if order then
    let dp := (List.range len_pred).foldl (fun dp i =>
        (List.range i).foldl (fun dp j =>
          if mval mapping i = -1 ∨ mval mapping j = -1 then dp
          else if mval mapping j < mval mapping i then
            dp.set i (max (dp.getD i 0) (dp.getD j 0 + 1))
          else dp) dp)
      (List.replicate len_pred 1)
    match dp.max? with
    | none => .error .emptyMax
    | some c =>
      if len_gt = 0 then .error .divByZero
      else
        let precision : ℚ := (c : ℚ) / (len_pred : ℚ)
        let rcl : ℚ := (c : ℚ) / (len_gt : ℚ)
        if rcl + precision = 0 then .error .divByZero
        else .ok ⟨precision, rcl, 2 * rcl * precision / (rcl + precision)⟩
  else
    let correct := (List.range len_pred).countP (fun i => mval mapping i ≠ -1)
    let fail_recall := (List.range len_gt).countP
      (fun i => ¬ (mapping.any (fun e => e.2 == (i : ℤ))))
    if len_gt = 0 then .error .divByZero
    else if len_pred = 0 then .error .divByZero
    else
      let rcl : ℚ := ((len_gt : ℚ) - (fail_recall : ℚ)) / (len_gt : ℚ)
      let precision : ℚ := (correct : ℚ) / (len_pred : ℚ)
      if correct = 0 then .ok ⟨precision, rcl, 0⟩
      else .ok ⟨precision, rcl, 2 * rcl * precision / (rcl + precision)⟩

/-- The sentinel labels filtered out everywhere. -/
def sentinel (s : String) : Bool := s == "START" || s == "END"

/-- `[node for node in nodes if node not in ["START", "END"]]`. -/
def stripSentinels (l : List String) : List String := l.filter (fun x => !(sentinel x))

/-- First-occurrence deduplication: networkx records each vertex at its first
insertion and ignores later insertions of the same vertex. -/
def firstDedup : List ℕ → List ℕ
  | [] => []
  | a :: l => a :: firstDedup (l.filter (fun b => b ≠ a))
termination_by l => l.length
decreasing_by
  simp only [List.length_cons]
  exact Nat.lt_succ_of_le (List.length_filter_le _ _)

/-- Vertex set of the networkx digraph built from `range(n)` plus all edge
endpoints (`add_edges_from` silently adds endpoints as vertices), in insertion
order, deduplicated keeping first occurrences. -/
def vertsOf (n : ℕ) (edges : List (ℕ × ℕ)) : List ℕ :=
  firstDedup (List.range n ++ edges.flatMap (fun e => [e.1, e.2]))

/-- Vertices of `rem` with no incoming edge from inside `rem`. -/
def sourcesOf (rem : List ℕ) (edges : List (ℕ × ℕ)) : List ℕ :=
  rem.filter (fun v => !(edges.any (fun e => e.2 == v && rem.contains e.1)))

/-- Enumeration of all topological sorts of the vertices `rem` (Kahn-style
branching over sources; fuel is the number of remaining vertices).  At every
step the available sources are tried latest-inserted first — networkx's
`all_topological_sorts` pops candidates from the right of its deque, so the
branch that always picks the earliest-inserted source (the input order, on a
topologically ordered graph) is emitted LAST.  Returns `[]` exactly on cyclic
inputs. -/
def kahnAux (edges : List (ℕ × ℕ)) : ℕ → List ℕ → List (List ℕ)
  | 0, rem => if rem = [] then [[]] else []
  | fuel + 1, rem =>
    if rem = [] then [[]]
    else (sourcesOf rem edges).reverse.flatMap
      (fun s => (kahnAux edges fuel (rem.erase s)).map (fun l => s :: l))

/-- Models `list(networkx.all_topological_sorts(G))` for the index digraph of
a graph value: all linearizations, newest available vertex chosen first at
every step, so the input order comes last (the library's docstring example
`DiGraph([(1, 2), (2, 3), (2, 4)])` yields `[[1, 2, 4, 3], [1, 2, 3, 4]]`). -/
def allSorts (g : Graph) : List (List ℕ) :=
  let verts := vertsOf g.nodes.length g.edges
  kahnAux g.edges verts.length verts

/-- `[original_nodes[i] for i in sort if original_nodes[i] not in ...]`;
an out-of-range index is an `IndexError`, modelled as `Except`. -/
def stripSort (names : List String) (sort : List ℕ) : Except Unit (List String) :=
  if sort.all (fun i => decide (i < names.length)) then
    .ok ((sort.map (fun i => names.getD i "")).filter (fun x => !(sentinel x)))
  else .error ()

/-- `all_topological_sorts(graph)`: bypass returning the input order when the
total node count is at least 12, otherwise all linearizations (named,
sentinels stripped) truncated to the first 20.  `.error` models the
exceptions the call can raise (`NetworkXUnfeasible` on a cyclic graph,
`IndexError` on an out-of-range sort index). -/
def all_topological_sorts (g : Graph) : Except Unit (List (List String)) :=
  if 12 ≤ g.nodes.length then .ok [stripSentinels g.nodes]
  else
    let sorts := allSorts g
    if sorts = [] then .error ()
    else do
      let named ← sorts.mapM (stripSort g.nodes)
      .ok (named.take 20)

/-- `t_eval_nodes(pred_graph, gt_graph, sentence_model)`: enumeration failures
on the reference graph are caught and give the zero score; the best
`t_eval_plan` result over all enumerated reference orderings is returned,
with `t_eval_plan` exceptions propagating (they happen outside the `try`). -/
def t_eval_nodes (pred gt : Graph) (model : EmbedModel) : Except EvalErr ScoreResult :=
  match all_topological_sorts gt with
  | .error _ => .ok ⟨0, 0, 0⟩
  | .ok trajects =>
    let pred_nodes := stripSentinels pred.nodes
    trajects.foldlM (fun best gold => do
      let r ← t_eval_plan pred_nodes gold model true
      pure (if best.f1_score < r.f1_score then r else best)) ⟨0, 0, 0⟩

/-- Direct successors of `u` in the edge list. -/
def succsOf (edges : List (ℕ × ℕ)) (u : ℕ) : Finset ℕ :=
  ((edges.filter (fun e => e.1 == u)).map (fun e => e.2)).toFinset

/-- One closure step of reachability. -/
def reachStep (edges : List (ℕ × ℕ)) (S : Finset ℕ) : Finset ℕ :=
  S ∪ S.biUnion (succsOf edges)

/-- Models `networkx.descendants(G, s)`: every vertex reachable from `s` by a
non-empty path, with `s` itself always removed (networkx never reports the
source). -/
def descSet (edges : List (ℕ × ℕ)) (fuel : ℕ) (s : ℕ) : Finset ℕ :=
  ((reachStep edges)^[fuel] (succsOf edges s)).erase s

/-- `reach_pairs(n_nodes, edges)`: the reachability closure as the set of
ordered pairs `(s, t)` with `t` a descendant of `s`, over `range(n)` plus the
edge endpoints. -/
def reachPairs (n : ℕ) (edges : List (ℕ × ℕ)) : Finset (ℕ × ℕ) :=
  let V := (vertsOf n edges).toFinset
  V.biUnion (fun s => (descSet edges V.card s).image (fun t => (s, t)))

/-- The edge-mapping phase of `t_eval_graph`: each candidate edge survives if
both endpoints are keys of the correspondence and neither maps to `-1`. -/
def mappedEdges (m : List (ℕ × ℤ)) (edges : List (ℕ × ℕ)) : List (ℕ × ℕ) :=
  edges.filterMap (fun e =>
    if hasKeyB m e.1 && hasKeyB m e.2 then
      if mval m e.1 ≠ -1 ∧ mval m e.2 ≠ -1 then
        some ((mval m e.1).toNat, (mval m e.2).toNat)
      else none
    else none)

/-- `t_eval_graph(pred_graph, gt_graph, sentence_model)`: reachability-closure
comparison after mapping candidate edges through the node correspondence. -/
def t_eval_graph (pred gt : Graph) (model : EmbedModel) : ScoreResult :=
  if pred.nodes = [] ∨ gt.nodes = [] then ⟨0, 0, 0⟩
  else
    let mapping := match_node pred.nodes gt.nodes model match_threshold_default
    let n_gt := gt.nodes.length
    let Rp := reachPairs n_gt (mappedEdges mapping pred.edges)
    let Rg := reachPairs n_gt gt.edges
    if Rp = ∅ ∧ Rg = ∅ then ⟨1, 1, 1⟩
    else
      let inter := Rp ∩ Rg
      let precision : ℚ := if Rp ≠ ∅ then (inter.card : ℚ) / (Rp.card : ℚ) else 0
      let rcl : ℚ := if Rg ≠ ∅ then (inter.card : ℚ) / (Rg.card : ℚ) else 0
      ⟨precision, rcl,
        if precision = 0 ∨ rcl = 0 then 0
        else 2 * precision * rcl / (precision + rcl)⟩

/-- A concrete embedding model whose similarities are all zero (labels embed
orthogonally); used for concrete evaluations. -/
def zeroModel : EmbedModel := fun _ _ => 0

/-! ## Specification-side definitions used to state the claims -/

/-- One row of the source's LIS dynamic program, as a pure value: the final
`dp[i]`, computed from the already-final prefix `prev` (`dp[j]` for `j < i`). -/
def dpInner (mv : ℕ → ℤ) (prev : List ℕ) (i : ℕ) : ℕ :=
  (List.range i).foldl (fun b j =>
    if mv i = -1 ∨ mv j = -1 then b
    else if mv j < mv i then max b (prev.getD j 0 + 1) else b) 1

/-- The final `dp` array of the LIS dynamic program, built row by row. -/
def dpList (mv : ℕ → ℤ) : ℕ → List ℕ
  | 0 => []
  | n + 1 => dpList mv n ++ [dpInner mv (dpList mv n) n]

/-- The final value `dp[i]` of the LIS dynamic program over `n` candidates. -/
def dpVal (mv : ℕ → ℤ) (n i : ℕ) : ℕ := (dpList mv n).getD i 0

/-- The length of the longest strictly-increasing subsequence of the matched
(non-`-1`) reference indices taken in candidate order: maximise the size of a
subset of candidate positions, kept in order, all matched, whose mapped
reference indices strictly increase. -/
def lisMatched (mv : ℕ → ℤ) (len : ℕ) : ℕ :=
  (((List.range len).sublists.filter (fun s =>
    s.all (fun j => decide (mv j ≠ -1)) && decide ((s.map mv).Chain' (· < ·)))).map
    List.length).foldr max 0

/-- A strictly increasing list of candidate positions, all matched, whose
mapped reference indices strictly increase (proof-side view of the chains
counted by `lisMatched`). -/
def IndexChain (mv : ℕ → ℤ) (js : List ℕ) : Prop :=
  js.Pairwise (· < ·) ∧ (∀ j ∈ js, mv j ≠ -1) ∧ (js.map mv).Chain' (· < ·)

/-- A closed directed walk: edges `v → p₀ → p₁ → ⋯ → v`.  This is the
specification-side notion of the graph containing a cycle. -/
def hasCycleWalk (g : Graph) : Prop :=
  ∃ v : ℕ, ∃ p : List ℕ, p ≠ [] ∧ List.Chain (fun a b => (a, b) ∈ g.edges) v p ∧
    p.getLast? = some v

/-- Every edge goes forward in the node list (the node list is one of the
graph's topological orders). -/
def topoOrdered (g : Graph) : Prop := ∀ e ∈ g.edges, e.1 < e.2

/-- Absence of cycles, stated through the computed reachability closure. -/
def acyclicReach (g : Graph) : Prop :=
  ∀ v ∈ vertsOf g.nodes.length g.edges,
    v ∉ (reachStep g.edges)^[(vertsOf g.nodes.length g.edges).length] (succsOf g.edges v)

/-- Well-formedness as the claims use it: the node list starts with the
`START` sentinel and ends with the `END` sentinel, every edge endpoint is a
valid node index, and the edge relation is acyclic. -/
def WellFormedGraph (g : Graph) : Prop :=
  g.nodes.head? = some "START" ∧ g.nodes.getLast? = some "END" ∧
  (∀ e ∈ g.edges, e.1 < g.nodes.length ∧ e.2 < g.nodes.length) ∧ acyclicReach g

/-- Number of interior (non-sentinel) nodes. -/
def interiorCount (g : Graph) : ℕ := (stripSentinels g.nodes).length

instance (g : Graph) : Decidable (topoOrdered g) :=
  inferInstanceAs (Decidable (∀ e ∈ g.edges, e.1 < e.2))

instance (g : Graph) : Decidable (acyclicReach g) :=
  inferInstanceAs (Decidable (∀ v ∈ vertsOf g.nodes.length g.edges,
    v ∉ (reachStep g.edges)^[(vertsOf g.nodes.length g.edges).length] (succsOf g.edges v)))

instance (g : Graph) : Decidable (WellFormedGraph g) :=
  inferInstanceAs (Decidable (g.nodes.head? = some "START" ∧
    g.nodes.getLast? = some "END" ∧
    (∀ e ∈ g.edges, e.1 < g.nodes.length ∧ e.2 < g.nodes.length) ∧ acyclicReach g))

/-! ## Concrete graphs used by counterexamples and witnesses -/

/-- A well-formed DAG whose node list is NOT in topological order: the edges
run `START → A → B → END` but `B` is listed before `A`. -/
def exG_misordered : Graph := ⟨["START", "B", "A", "END"], [(0, 2), (2, 1), (1, 3)]⟩

/-- A well-formed three-node chain. -/
def exG_chain : Graph := ⟨["START", "go", "END"], [(0, 1), (1, 2)]⟩

/-- The sentinel-only graph. -/
def exG_sentinelsOnly : Graph := ⟨["START", "END"], [(0, 1)]⟩

/-- A graph whose interior contains the two-cycle `A ⇄ B`. -/
def exG_cyclic : Graph := ⟨["START", "A", "B", "END"], [(0, 1), (1, 2), (2, 1), (2, 3)]⟩

/-- Twelve nodes in total, ten interior ones, and two admissible interleavings
of `I` and `J`; the enumeration bypass fires on it. -/
def exG_bypass : Graph :=
  ⟨["START", "A", "B", "C", "D", "E", "F", "G", "H", "I", "J", "END"],
    [(0, 1), (1, 2), (2, 3), (3, 4), (4, 5), (5, 6), (6, 7), (7, 8), (8, 9), (8, 10),
      (9, 11), (10, 11)]⟩

/-- The empty graph. -/
def exG_empty : Graph := ⟨[], []⟩

/-- A well-formed, topologically ordered fan: five incomparable interior
nodes, hence `5! = 120` linearizations.  networkx emits the input order last,
so the kept first 20 orderings do not contain it. -/
def exG_fan : Graph :=
  ⟨["START", "A", "B", "C", "D", "E", "END"],
    [(0, 1), (0, 2), (0, 3), (0, 4), (0, 5), (1, 6), (2, 6), (3, 6), (4, 6), (5, 6)]⟩

/-! ## Association-list dictionary lemmas -/

theorem hasKeyB_iff {m : List (ℕ × ℤ)} {k : ℕ} :
    hasKeyB m k = true ↔ ∃ v, (k, v) ∈ m := by
  unfold hasKeyB
  simp only [List.any_eq_true, beq_iff_eq]
  constructor
  · rintro ⟨e, he, hk⟩
    exact ⟨e.2, by simpa [← hk] using he⟩
  · rintro ⟨v, hv⟩
    exact ⟨(k, v), hv, rfl⟩

theorem hasKeyB_append {m m' : List (ℕ × ℤ)} {k : ℕ} :
    hasKeyB (m ++ m') k = (hasKeyB m k || hasKeyB m' k) := by
  unfold hasKeyB; simp [List.any_append]

theorem mfind_append_left {m m' : List (ℕ × ℤ)} {k : ℕ} (h : hasKeyB m k = true) :
    mfind (m ++ m') k = mfind m k := by
  unfold mfind
  rw [List.find?_append]
  rcases List.any_eq_true.mp h with ⟨e, he, hk⟩
  have : (m.find? (fun e => e.1 == k)).isSome = true :=
    List.find?_isSome.mpr ⟨e, he, hk⟩
  rcases Option.isSome_iff_exists.mp this with ⟨e₀, he₀⟩
  simp [he₀]

theorem mfind_append_right {m m' : List (ℕ × ℤ)} {k : ℕ} (h : hasKeyB m k = false) :
    mfind (m ++ m') k = mfind m' k := by
  unfold mfind
  rw [List.find?_append]
  have : m.find? (fun e => e.1 == k) = none := by
    rw [List.find?_eq_none]
    intro e he hbeq
    have hek : e.1 = k := by simpa using hbeq
    have hkey : hasKeyB m k = true := hasKeyB_iff.mpr ⟨e.2, by rw [← hek]; exact he⟩
    rw [h] at hkey
    cases hkey
  simp [this]

theorem mfind_mem {m : List (ℕ × ℤ)} {k : ℕ} {v : ℤ} (h : mfind m k = some v) :
    (k, v) ∈ m := by
  unfold mfind at h
  rcases Option.map_eq_some'.mp h with ⟨e, he, hv⟩
  have hk := List.find?_some he
  have := List.mem_of_find?_eq_some he
  obtain ⟨e1, e2⟩ := e
  simp only [beq_iff_eq] at hk
  subst hk; subst hv
  exact this

theorem mfind_isSome_of_hasKey {m : List (ℕ × ℤ)} {k : ℕ} (h : hasKeyB m k = true) :
    ∃ v, mfind m k = some v := by
  rcases List.any_eq_true.mp h with ⟨e, he, hk⟩
  have : (m.find? (fun e => e.1 == k)).isSome = true := List.find?_isSome.mpr ⟨e, he, hk⟩
  rcases Option.isSome_iff_exists.mp this with ⟨e₀, he₀⟩
  exact ⟨e₀.2, by unfold mfind; simp [he₀]⟩

theorem mfind_key_of_some {m : List (ℕ × ℤ)} {k : ℕ} {v : ℤ} (h : mfind m k = some v) :
    hasKeyB m k = true :=
  hasKeyB_iff.mpr ⟨v, mfind_mem h⟩

theorem mfind_eq_of_nodup_mem {m : List (ℕ × ℤ)} {k : ℕ} {v : ℤ}
    (hnd : (m.map Prod.fst).Nodup) (hmem : (k, v) ∈ m) : mfind m k = some v := by
  induction m with
  | nil => cases hmem
  | cons e es ih =>
    rcases List.mem_cons.mp hmem with he | he
    · subst he; unfold mfind; simp
    · have hk : e.1 ≠ k := by
        intro hek
        have : k ∈ es.map Prod.fst := List.mem_map.mpr ⟨(k, v), he, rfl⟩
        rw [List.map_cons, List.nodup_cons, hek] at hnd
        exact hnd.1 this
      have ih' := ih (by rw [List.map_cons, List.nodup_cons] at hnd; exact hnd.2) he
      unfold mfind at ih' ⊢
      simpa [List.find?_cons, hk] using ih'

/-! ## Exact-match pass invariants -/

theorem findFirstUnusedFrom_some {off g : ℕ} {ts : List String} {u : List ℕ} {txt : String} :
    findFirstUnusedFrom off ts u txt = some g →
    g ∉ u ∧ off ≤ g ∧ g < off + ts.length := by
  induction ts generalizing off with
  | nil => intro h; cases h
  | cons t ts ih =>
    intro h
    unfold findFirstUnusedFrom at h
    split at h
    · rename_i hcond
      cases h
      exact ⟨hcond.1, le_refl _, by simp⟩
    · rcases ih h with ⟨h1, h2, h3⟩
      exact ⟨h1, by omega, by simp at h3 ⊢; omega⟩

/-- Bundled invariant of the exact-match pass: keys strictly below the range
end, key list and value list without duplicates, all values valid reference
indices recorded in the used set, and the accumulator is only extended. -/
theorem exactPassFrom_inv (ts : List String) :
    ∀ (p0 : ℕ) (gt : List String) (m : List (ℕ × ℤ)) (u : List ℕ),
    (∀ e ∈ m, e.1 < p0) →
    (∀ e ∈ m, 0 ≤ e.2 ∧ e.2 < (gt.length : ℤ) ∧ e.2.toNat ∈ u) →
    (m.map Prod.snd).Nodup →
    (m.map Prod.fst).Nodup →
    (∀ e ∈ (exactPassFrom p0 ts gt m u).1, e.1 < p0 + ts.length) ∧
    (∀ e ∈ (exactPassFrom p0 ts gt m u).1,
      0 ≤ e.2 ∧ e.2 < (gt.length : ℤ) ∧ e.2.toNat ∈ (exactPassFrom p0 ts gt m u).2) ∧
    ((exactPassFrom p0 ts gt m u).1.map Prod.snd).Nodup ∧
    ((exactPassFrom p0 ts gt m u).1.map Prod.fst).Nodup ∧
    (∀ x ∈ u, x ∈ (exactPassFrom p0 ts gt m u).2) ∧
    (∃ ext, (exactPassFrom p0 ts gt m u).1 = m ++ ext) := by
  induction ts with
  | nil =>
    intro p0 gt m u hk hv hnds hndf
    simp only [exactPassFrom]
    refine ⟨fun e he => ?_, fun e he => hv e he, hnds, hndf,
      fun x hx => hx, ⟨[], by simp⟩⟩
    exact Nat.lt_of_lt_of_le (hk e he) (by simp)
  | cons t ts ih =>
    intro p0 gt m u hk hv hnds hndf
    simp only [exactPassFrom]
    cases hf : findFirstUnusedFrom 0 gt u t with
    | none =>
      obtain ⟨b1, b2, b3, b4, b5, b6⟩ :=
        ih (p0 + 1) gt m u (fun e he => Nat.lt_succ_of_lt (hk e he)) hv hnds hndf
      exact ⟨fun e he => by have := b1 e he; simpa using by omega, b2, b3, b4, b5, b6⟩
    | some g =>
      rcases findFirstUnusedFrom_some hf with ⟨hgu, _, hgl⟩
      have hgl' : g < gt.length := by simpa using hgl
      have hk' : ∀ e ∈ m ++ [(p0, (g : ℤ))], e.1 < p0 + 1 := by
        intro e he
        rcases List.mem_append.mp he with h | h
        · exact Nat.lt_succ_of_lt (hk e h)
        · simp at h; subst h; exact Nat.lt_succ_self _
      have hv' : ∀ e ∈ m ++ [(p0, (g : ℤ))],
          0 ≤ e.2 ∧ e.2 < (gt.length : ℤ) ∧ e.2.toNat ∈ g :: u := by
        intro e he
        rcases List.mem_append.mp he with h | h
        · exact ⟨(hv e h).1, (hv e h).2.1, List.mem_cons_of_mem _ (hv e h).2.2⟩
        · simp at h
          subst h
          refine ⟨Int.natCast_nonneg g, ?_, ?_⟩
          · show (g : ℤ) < (gt.length : ℤ)
            exact_mod_cast hgl'
          · simp
      have hnds' : ((m ++ [(p0, (g : ℤ))]).map Prod.snd).Nodup := by
        rw [List.map_append, List.nodup_append]
        refine ⟨hnds, by simp, ?_⟩
        intro v hvv hvv'
        simp at hvv'
        rcases List.mem_map.mp hvv with ⟨e, he, hev⟩
        have hu := (hv e he).2.2
        rw [hev, hvv'] at hu
        simp at hu
        exact hgu hu
      have hndf' : ((m ++ [(p0, (g : ℤ))]).map Prod.fst).Nodup := by
        rw [List.map_append, List.nodup_append]
        refine ⟨hndf, by simp, ?_⟩
        intro x hx hx'
        simp at hx'
        rcases List.mem_map.mp hx with ⟨e, he, hex⟩
        have := hk e he
        rw [hex, hx'] at this
        exact absurd this (lt_irrefl _)
      obtain ⟨b1, b2, b3, b4, b5, b6⟩ :=
        ih (p0 + 1) gt (m ++ [(p0, (g : ℤ))]) (g :: u) hk' hv' hnds' hndf'
      refine ⟨fun e he => by have := b1 e he; simpa using by omega,
        b2, b3, b4, fun x hx => b5 x (List.mem_cons_of_mem _ hx), ?_⟩
      rcases b6 with ⟨ext, hext⟩
      exact ⟨(p0, (g : ℤ)) :: ext, by simpa using hext⟩

/-! ## Maximum-weight-matching model lemmas -/

theorem matchingsOf_sublist {es : List (ℕ × ℕ × ℚ)} {M : List (ℕ × ℕ × ℚ)}
    (h : M ∈ matchingsOf es) : M.Sublist es := by
  induction es generalizing M with
  | nil => simp [matchingsOf] at h; simp [h]
  | cons e es ih =>
    simp only [matchingsOf, List.mem_append, List.mem_map, List.mem_filter] at h
    rcases h with h | ⟨M', ⟨hM', _⟩, hMM⟩
    · exact (ih h).cons e
    · rw [← hMM]
      exact (ih hM').cons₂ e

theorem matchingsOf_pairwise {es : List (ℕ × ℕ × ℚ)} {M : List (ℕ × ℕ × ℚ)}
    (h : M ∈ matchingsOf es) : M.Pairwise pairDisj := by
  induction es generalizing M with
  | nil => simp [matchingsOf] at h; simp [h]
  | cons e es ih =>
    simp only [matchingsOf, List.mem_append, List.mem_map, List.mem_filter] at h
    rcases h with h | ⟨M', ⟨hM', hall⟩, hMM⟩
    · exact ih h
    · rw [← hMM]
      refine List.pairwise_cons.mpr ⟨?_, ih hM'⟩
      intro f hf
      have := List.all_eq_true.mp hall f hf
      exact of_decide_eq_true this

theorem matchingsOf_self_mem (es : List (ℕ × ℕ × ℚ)) : [] ∈ matchingsOf es := by
  induction es with
  | nil => simp [matchingsOf]
  | cons e es ih => simp only [matchingsOf, List.mem_append]; exact Or.inl ih

theorem foldl_pick_mem {α : Type} (f : α → α → Prop) [DecidableRel f] :
    ∀ (l : List α) (init : α),
    (l.foldl (fun b M => if f b M then M else b) init) ∈ init :: l := by
  intro l
  induction l with
  | nil => intro init; simp
  | cons x xs ih =>
    intro init
    simp only [List.foldl_cons]
    by_cases h : f init x
    · simp only [if_pos h]
      rcases List.mem_cons.mp (ih x) with h' | h'
      · simp [h']
      · simp [List.mem_cons_of_mem, h']
    · simp only [if_neg h]
      rcases List.mem_cons.mp (ih init) with h' | h'
      · simp [h']
      · simp [List.mem_cons_of_mem, h']

theorem maxWeightMatching_spec (es : List (ℕ × ℕ × ℚ)) :
    ∃ M ∈ matchingsOf es, maxWeightMatching es = M.map (fun e => (e.1, e.2.1)) := by
  unfold maxWeightMatching
  set best := (matchingsOf es).foldl
    (fun best M => if weightOf best < weightOf M then M else best) [] with hbest
  have : best ∈ ([] : List (ℕ × ℕ × ℚ)) :: matchingsOf es := by
    rw [hbest]
    exact foldl_pick_mem (fun b M => weightOf b < weightOf M) (matchingsOf es) []
  rcases List.mem_cons.mp this with h | h
  · exact ⟨[], matchingsOf_self_mem es, by rw [h]⟩
  · exact ⟨best, h, rfl⟩

theorem maxWeightMatching_empty : maxWeightMatching [] = [] := by
  with_unfolding_all decide

theorem bipartiteEdges_mem {lp : ℕ} {thr : ℚ} {model : EmbedModel}
    {rp rg : List (ℕ × String)} {u v : ℕ} {w : ℚ}
    (h : (u, v, w) ∈ bipartiteEdges lp thr model rp rg) :
    ∃ pe ∈ rp, ∃ ge ∈ rg, u = pe.1 ∧ v = lp + ge.1 ∧
      thr ≤ clampNonneg (model pe.2 ge.2) := by
  unfold bipartiteEdges at h
  rcases List.mem_flatMap.mp h with ⟨pe, hpe, hmem⟩
  rcases List.mem_filterMap.mp hmem with ⟨ge, hge, heq⟩
  dsimp only at heq
  split at heq
  · rename_i hthr
    simp only [Option.some.injEq, Prod.mk.injEq] at heq
    exact ⟨pe, hpe, ge, hge, heq.1.symm, heq.2.1.symm, hthr⟩
  · cases heq

/-! ## Phase-2 and phase-3 fold lemmas of `match_node` -/

theorem dinsert_new {m : List (ℕ × ℤ)} {k : ℕ} {v : ℤ} (h : hasKeyB m k = false) :
    dinsert m k v = m ++ [(k, v)] := by
  unfold dinsert
  rw [h]
  simp

theorem fold_dinsert_append {lp : ℕ} :
    ∀ (mwm : List (ℕ × ℕ)) (m : List (ℕ × ℤ)),
    (∀ uv ∈ mwm, uv.1 < lp ∧ hasKeyB m uv.1 = false) →
    ((mwm.map Prod.fst).Nodup) →
    (mwm.foldl (fun m uv =>
      if uv.1 < lp then dinsert m uv.1 ((uv.2 : ℤ) - (lp : ℤ))
      else dinsert m uv.2 ((uv.1 : ℤ) - (lp : ℤ))) m) =
      m ++ mwm.map (fun uv => (uv.1, (uv.2 : ℤ) - (lp : ℤ))) := by
  intro mwm
  induction mwm with
  | nil => intro m _ _; simp
  | cons uv mwm ih =>
    intro m hprop hnd
    have h1 := hprop uv (List.mem_cons_self _ _)
    simp only [List.foldl_cons, if_pos h1.1]
    rw [dinsert_new h1.2]
    rw [List.map_cons, List.nodup_cons] at hnd
    have hprop' : ∀ x ∈ mwm, x.1 < lp ∧ hasKeyB (m ++ [(uv.1, (uv.2 : ℤ) - (lp : ℤ))]) x.1 = false := by
      intro x hx
      refine ⟨(hprop x (List.mem_cons_of_mem _ hx)).1, ?_⟩
      rw [hasKeyB_append]
      have hne : x.1 ≠ uv.1 := by
        intro hcon
        exact hnd.1 (hcon ▸ List.mem_map.mpr ⟨x, hx, rfl⟩)
      have : hasKeyB [(uv.1, (uv.2 : ℤ) - (lp : ℤ))] x.1 = false := by
        unfold hasKeyB
        simp [Ne.symm hne]
      rw [(hprop x (List.mem_cons_of_mem _ hx)).2, this]
      rfl
    rw [ih (m ++ [(uv.1, (uv.2 : ℤ) - (lp : ℤ))]) hprop' hnd.2]
    simp

theorem fill_fold_spec :
    ∀ (is : List ℕ) (m : List (ℕ × ℤ)),
    ∃ ext, (is.foldl (fun m i => if hasKeyB m i then m else m ++ [(i, (-1 : ℤ))]) m) = m ++ ext ∧
      (∀ e ∈ ext, e.1 ∈ is ∧ e.2 = -1 ∧ hasKeyB m e.1 = false) ∧
      (ext.map Prod.fst).Nodup ∧
      (∀ i ∈ is, hasKeyB (is.foldl (fun m i => if hasKeyB m i then m else m ++ [(i, (-1 : ℤ))]) m) i = true) := by
  intro is
  induction is with
  | nil => intro m; exact ⟨[], by simp, by simp, by simp, by simp⟩
  | cons i is ih =>
    intro m
    simp only [List.foldl_cons]
    by_cases h : hasKeyB m i
    · rw [if_pos h]
      rcases ih m with ⟨ext, he, hprop, hnd, hall⟩
      refine ⟨ext, he, fun e hee => ⟨List.mem_cons_of_mem _ (hprop e hee).1,
        (hprop e hee).2.1, (hprop e hee).2.2⟩, hnd, ?_⟩
      intro j hj
      rcases List.mem_cons.mp hj with hj | hj
      · subst hj
        rw [he, hasKeyB_append, h]
        rfl
      · exact hall j hj
    · rw [if_neg h]
      rcases ih (m ++ [(i, (-1 : ℤ))]) with ⟨ext, he, hprop, hnd, hall⟩
      refine ⟨(i, (-1 : ℤ)) :: ext, by rw [he]; simp, ?_, ?_, ?_⟩
      · intro e hee
        rcases List.mem_cons.mp hee with hee | hee
        · subst hee
          exact ⟨List.mem_cons_self _ _, rfl, by simpa using h⟩
        · have hp := hprop e hee
          refine ⟨List.mem_cons_of_mem _ hp.1, hp.2.1, ?_⟩
          have := hp.2.2
          rw [hasKeyB_append] at this
          exact Bool.or_eq_false_iff.mp this |>.1
      · rw [List.map_cons, List.nodup_cons]
        refine ⟨?_, hnd⟩
        intro hcon
        rcases List.mem_map.mp hcon with ⟨e, hee, hex⟩
        have := (hprop e hee).2.2
        rw [hasKeyB_append, hex] at this
        have h2 : hasKeyB [(i, (-1 : ℤ))] i = true := by
          unfold hasKeyB; simp
        rw [h2] at this
        simp at this
      · intro j hj
        rcases List.mem_cons.mp hj with hj | hj
        · subst hj
          rw [he, List.append_assoc]
          rw [hasKeyB_append]
          have h2 : hasKeyB [(j, (-1 : ℤ))] j = true := by
            unfold hasKeyB; simp
          rw [hasKeyB_append, h2]
          simp
        · exact hall j hj

/-! ## The `match_node` decomposition -/

theorem contains_false_iff {l : List ℕ} {x : ℕ} : (l.contains x = false) ↔ x ∉ l := by
  rw [Bool.eq_false_iff, ne_eq, List.contains_iff_exists_mem_beq]
  simp

theorem keys_complete {keys : List ℕ} {n : ℕ} (hnd : keys.Nodup)
    (hlt : ∀ k ∈ keys, k < n) (hlen : keys.length = n) : ∀ k, k < n → k ∈ keys := by
  have hsub : keys.toFinset ⊆ Finset.range n := by
    intro k hk
    rw [List.mem_toFinset] at hk
    exact Finset.mem_range.mpr (hlt k hk)
  have hcard : (Finset.range n).card ≤ keys.toFinset.card := by
    rw [List.toFinset_card_of_nodup hnd, hlen, Finset.card_range]
  have heq := Finset.eq_of_subset_of_card_le hsub hcard
  intro k hk
  have hkk : k ∈ keys.toFinset := by rw [heq]; exact Finset.mem_range.mpr hk
  exact List.mem_toFinset.mp hkk

theorem mem_enum_getElem {α : Type} {l : List α} {i : ℕ} {a : α} (h : (i, a) ∈ l.enum) :
    l[i]? = some a :=
  List.mk_mem_enum_iff_getElem?.mp h

theorem mem_enum_lt {α : Type} {l : List α} {i : ℕ} {a : α} (h : (i, a) ∈ l.enum) :
    i < l.length := by
  rcases List.getElem?_eq_some.mp (mem_enum_getElem h) with ⟨hl, _⟩
  exact hl

/-- The branch structure of `match_node`, written without `let`. -/
theorem match_node_eq (pred gt : List String) (model : EmbedModel) (thr : ℚ) :
    match_node pred gt model thr =
      if (exactPass pred gt).1.length = pred.length ∧
          (exactPass pred gt).1.length = gt.length then (exactPass pred gt).1
      else
        (List.range pred.length).foldl
          (fun m i => if hasKeyB m i then m else m ++ [(i, (-1 : ℤ))])
          (if (pred.enum.filter (fun e => !(hasKeyB (exactPass pred gt).1 e.1))) ≠ [] ∧
              (gt.enum.filter (fun e => !((exactPass pred gt).2.contains e.1))) ≠ [] then
            (maxWeightMatching (bipartiteEdges pred.length thr model
                (pred.enum.filter (fun e => !(hasKeyB (exactPass pred gt).1 e.1)))
                (gt.enum.filter (fun e => !((exactPass pred gt).2.contains e.1))))).foldl
              (fun m uv =>
                if uv.1 < pred.length then dinsert m uv.1 ((uv.2 : ℤ) - (pred.length : ℤ))
                else dinsert m uv.2 ((uv.1 : ℤ) - (pred.length : ℤ)))
              (exactPass pred gt).1
          else (exactPass pred gt).1) := rfl

/-- The result of `match_node` is the exact-match mapping, followed by the
similarity-pass insertions, followed by the `-1` fill, with the listed facts
about each block and totality over the candidate indices. -/
theorem match_node_decomp (pred gt : List String) (model : EmbedModel) (thr : ℚ) :
    ∃ ins ext : List (ℕ × ℤ),
      match_node pred gt model thr = (exactPass pred gt).1 ++ ins ++ ext ∧
      (∀ x ∈ ins, ∃ pe ∈ pred.enum, ∃ ge ∈ gt.enum,
        x.1 = pe.1 ∧ x.2 = (ge.1 : ℤ) ∧ ge.1 ∉ (exactPass pred gt).2 ∧
        hasKeyB (exactPass pred gt).1 pe.1 = false ∧
        thr ≤ clampNonneg (model pe.2 ge.2)) ∧
      (ins.map Prod.fst).Nodup ∧
      (ins.map Prod.snd).Nodup ∧
      (∀ e ∈ ext, e.1 < pred.length ∧ e.2 = -1 ∧
        hasKeyB ((exactPass pred gt).1 ++ ins) e.1 = false) ∧
      (ext.map Prod.fst).Nodup ∧
      (∀ k, k < pred.length → hasKeyB (match_node pred gt model thr) k = true) := by
  obtain ⟨inv1, inv2, inv3, inv4, _, _⟩ :=
    exactPassFrom_inv pred 0 gt [] [] (by simp) (by simp) (by simp) (by simp)
  rw [match_node_eq]
  by_cases hearly : (exactPass pred gt).1.length = pred.length ∧
      (exactPass pred gt).1.length = gt.length
  · rw [if_pos hearly]
    refine ⟨[], [], by simp, by simp, by simp, by simp, by simp, by simp, ?_⟩
    intro k hk
    have hkeys : ∀ x ∈ (exactPass pred gt).1.map Prod.fst, x < pred.length := by
      intro x hx
      rcases List.mem_map.mp hx with ⟨e, he, hex⟩
      have := inv1 e he
      omega
    have hmem : k ∈ (exactPass pred gt).1.map Prod.fst :=
      keys_complete inv4 hkeys (by rw [List.length_map]; exact hearly.1) k hk
    rcases List.mem_map.mp hmem with ⟨e, he, hek⟩
    exact hasKeyB_iff.mpr ⟨e.2, by rw [← hek]; exact he⟩
  · rw [if_neg hearly]
    by_cases hrem : (pred.enum.filter (fun e => !(hasKeyB (exactPass pred gt).1 e.1))) ≠ [] ∧
        (gt.enum.filter (fun e => !((exactPass pred gt).2.contains e.1))) ≠ []
    · rw [if_pos hrem]
      set rp := pred.enum.filter (fun e => !(hasKeyB (exactPass pred gt).1 e.1)) with hrp
      set rg := gt.enum.filter (fun e => !((exactPass pred gt).2.contains e.1)) with hrg
      set es := bipartiteEdges pred.length thr model rp rg with hes
      obtain ⟨M, hM, hmwm⟩ := maxWeightMatching_spec es
      have hsub := (matchingsOf_sublist hM).subset
      have hpw := matchingsOf_pairwise hM
      -- facts about every pair of the matching
      have hfact : ∀ uv ∈ maxWeightMatching es, ∃ pe ∈ pred.enum, ∃ ge ∈ gt.enum,
          uv.1 = pe.1 ∧ uv.2 = pred.length + ge.1 ∧ ge.1 ∉ (exactPass pred gt).2 ∧
          hasKeyB (exactPass pred gt).1 pe.1 = false ∧
          thr ≤ clampNonneg (model pe.2 ge.2) := by
        intro uv huv
        rw [hmwm] at huv
        rcases List.mem_map.mp huv with ⟨e, he, heq⟩
        obtain ⟨a, b, w⟩ := e
        rcases bipartiteEdges_mem (hsub he) with ⟨pe, hpe, ge, hge, ha, hb, hthr⟩
        have hpe' := List.mem_filter.mp hpe
        have hge' := List.mem_filter.mp hge
        refine ⟨pe, hpe'.1, ge, hge'.1, ?_, ?_, ?_, ?_, hthr⟩
        · rw [← heq]; exact ha
        · rw [← heq]; exact hb
        · exact contains_false_iff.mp (by simpa using hge'.2)
        · simpa using hpe'.2
      have hprop : ∀ uv ∈ maxWeightMatching es,
          uv.1 < pred.length ∧ hasKeyB (exactPass pred gt).1 uv.1 = false := by
        intro uv huv
        rcases hfact uv huv with ⟨pe, hpe, _, _, h1, _, _, h4, _⟩
        obtain ⟨pi, pt⟩ := pe
        have := mem_enum_lt hpe
        exact ⟨by rw [h1]; exact this, by rw [h1]; exact h4⟩
      have hndl : ((maxWeightMatching es).map Prod.fst).Nodup := by
        rw [hmwm, List.map_map]
        exact List.Pairwise.map _ (fun a b hab => hab.1) hpw
      have hpwr : (maxWeightMatching es).Pairwise (fun a b => a.2 ≠ b.2) := by
        rw [hmwm]
        exact List.Pairwise.map _ (fun a b hab => hab.2.2.2) hpw
      have hmain := fold_dinsert_append (maxWeightMatching es)
        (exactPass pred gt).1 hprop hndl
      obtain ⟨ext, hfill, hextp, hextnd, hall⟩ := fill_fold_spec (List.range pred.length)
        ((exactPass pred gt).1 ++ (maxWeightMatching es).map
          (fun uv => (uv.1, (uv.2 : ℤ) - (pred.length : ℤ))))
      refine ⟨(maxWeightMatching es).map
        (fun uv => (uv.1, (uv.2 : ℤ) - (pred.length : ℤ))), ext, ?_, ?_, ?_, ?_, ?_, hextnd, ?_⟩
      · rw [hmain, hfill]
      · intro x hx
        rcases List.mem_map.mp hx with ⟨uv, huv, heq2⟩
        rcases hfact uv huv with ⟨pe, hpe, ge, hge, h1, h2, h3, h4, h5⟩
        refine ⟨pe, hpe, ge, hge, ?_, ?_, h3, h4, h5⟩
        · rw [← heq2]; exact h1
        · rw [← heq2]
          show (uv.2 : ℤ) - (pred.length : ℤ) = (ge.1 : ℤ)
          omega
      · rw [List.map_map]
        simpa using hndl
      · rw [List.map_map]
        refine List.Pairwise.map _ ?_ hpwr
        intro a b hab
        show (a.2 : ℤ) - (pred.length : ℤ) ≠ (b.2 : ℤ) - (pred.length : ℤ)
        intro hc
        exact hab (by omega)
      · intro e he
        have hp := hextp e he
        exact ⟨by simpa using hp.1, hp.2.1, hp.2.2⟩
      · intro k hk
        rw [hmain, hfill]
        have hres := hall k (List.mem_range.mpr hk)
        rw [hfill] at hres
        exact hres
    · rw [if_neg hrem]
      obtain ⟨ext, hfill, hextp, hextnd, hall⟩ :=
        fill_fold_spec (List.range pred.length) (exactPass pred gt).1
      refine ⟨[], ext, ?_, by simp, by simp, by simp, ?_, hextnd, ?_⟩
      · rw [hfill]; simp
      · intro e he
        have hp := hextp e he
        exact ⟨by simpa using hp.1, hp.2.1, by simpa using hp.2.2⟩
      · intro k hk
        rw [hfill]
        rw [hfill] at hall
        exact hall k (List.mem_range.mpr hk)

theorem hasKeyB_false_iff {m : List (ℕ × ℤ)} {k : ℕ} :
    hasKeyB m k = false ↔ ∀ v, (k, v) ∉ m := by
  rw [Bool.eq_false_iff, ne_eq, hasKeyB_iff]
  simp

/-- Entry-level invariants of the full `match_node` correspondence: every key
is a candidate index with values either `-1` or a valid reference index, keys
are unique, every candidate index is present, and entries with the same
non-`-1` value coincide. -/
theorem match_node_entry_facts (pred gt : List String) (model : EmbedModel) (thr : ℚ) :
    (∀ e ∈ match_node pred gt model thr,
      e.1 < pred.length ∧ (e.2 = -1 ∨ (0 ≤ e.2 ∧ e.2 < (gt.length : ℤ)))) ∧
    ((match_node pred gt model thr).map Prod.fst).Nodup ∧
    (∀ k, k < pred.length → hasKeyB (match_node pred gt model thr) k = true) ∧
    (∀ e ∈ match_node pred gt model thr, ∀ f ∈ match_node pred gt model thr,
      e.2 = f.2 → e.2 ≠ -1 → e = f) := by
  obtain ⟨inv1, inv2, inv3, inv4, _, _⟩ :=
    exactPassFrom_inv pred 0 gt [] [] (by simp) (by simp) (by simp) (by simp)
  obtain ⟨ins, ext, hM, hins, hinsf, hinss, hext, hextnd, htot⟩ :=
    match_node_decomp pred gt model thr
  have hm1key : ∀ e ∈ (exactPass pred gt).1, e.1 < pred.length := by
    intro e he
    have := inv1 e he
    omega
  have hinskey : ∀ x ∈ ins, x.1 < pred.length ∧ hasKeyB (exactPass pred gt).1 x.1 = false := by
    intro x hx
    rcases hins x hx with ⟨pe, hpe, ge, hge, h1, _, _, h4, _⟩
    exact ⟨by rw [h1]; exact mem_enum_lt hpe, by rw [h1]; exact h4⟩
  have hinsval : ∀ x ∈ ins, ∃ g : ℕ, x.2 = (g : ℤ) ∧ g < gt.length ∧ g ∉ (exactPass pred gt).2 := by
    intro x hx
    rcases hins x hx with ⟨pe, hpe, ge, hge, _, h2, h3, _, _⟩
    exact ⟨ge.1, h2, mem_enum_lt hge, h3⟩
  constructor
  · intro e he
    rw [hM] at he
    rcases List.mem_append.mp he with he | he
    · rcases List.mem_append.mp he with he | he
      · exact ⟨hm1key e he, Or.inr ⟨(inv2 e he).1, (inv2 e he).2.1⟩⟩
      · rcases hinsval e he with ⟨g, hg, hgl, _⟩
        exact ⟨(hinskey e he).1, Or.inr ⟨by rw [hg]; exact Int.natCast_nonneg g,
          by rw [hg]; exact_mod_cast hgl⟩⟩
    · exact ⟨(hext e he).1, Or.inl (hext e he).2.1⟩
  refine ⟨?_, htot, ?_⟩
  · rw [hM, List.map_append, List.map_append, List.nodup_append, List.nodup_append]
    refine ⟨⟨inv4, hinsf, ?_⟩, hextnd, ?_⟩
    · intro a ha hb
      rcases List.mem_map.mp hb with ⟨x, hx, hxa⟩
      have hfalse := (hinskey x hx).2
      rw [hasKeyB_false_iff] at hfalse
      rcases List.mem_map.mp ha with ⟨e, he, hea⟩
      refine hfalse e.2 ?_
      rw [hxa, ← hea]
      exact he
    · intro a ha hb
      rcases List.mem_map.mp hb with ⟨x, hx, hxa⟩
      have hfalse := (hext x hx).2.2
      rw [hasKeyB_false_iff] at hfalse
      rw [← List.map_append] at ha
      rcases List.mem_map.mp ha with ⟨e, he, hea⟩
      refine hfalse e.2 ?_
      rw [hxa, ← hea]
      exact he
  · intro e he f hf hef hne
    rw [hM] at he hf
    have hextval : ∀ x ∈ ext, x.2 = -1 := fun x hx => (hext x hx).2.1
    rcases List.mem_append.mp he with he | he
    · rcases List.mem_append.mp hf with hf | hf
      · rcases List.mem_append.mp he with he | he
        · rcases List.mem_append.mp hf with hf | hf
          · exact List.inj_on_of_nodup_map inv3 he hf hef
          · rcases hinsval f hf with ⟨g, hg, _, hgu⟩
            have h2 := inv2 e he
            exfalso
            apply hgu
            have htn : e.2.toNat = g := by rw [hef, hg]; simp
            rw [← htn]
            exact h2.2.2
        · rcases List.mem_append.mp hf with hf | hf
          · rcases hinsval e he with ⟨g, hg, _, hgu⟩
            have h2 := inv2 f hf
            exfalso
            apply hgu
            have htn : f.2.toNat = g := by rw [← hef, hg]; simp
            rw [← htn]
            exact h2.2.2
          · exact List.inj_on_of_nodup_map hinss he hf hef
      · exact absurd (hef.trans (hextval f hf)) hne
    · exact absurd (hextval e he) hne

/-- Candidate indices that clear neither the exact-match pass nor the
similarity threshold against any reference label end up mapped to `-1`. -/
theorem match_node_unmatched_neg (pred gt : List String) (model : EmbedModel) (thr : ℚ)
    (i : ℕ) (hi : i < pred.length)
    (hnoexact : hasKeyB (exactPass pred gt).1 i = false)
    (hsim : ∀ j, j < gt.length → clampNonneg (model (pred.getD i "") (gt.getD j "")) < thr) :
    mfind (match_node pred gt model thr) i = some (-1) := by
  obtain ⟨ins, ext, hM, hins, _, _, hext, _, htot⟩ := match_node_decomp pred gt model thr
  have hni : hasKeyB ins i = false := by
    rw [hasKeyB_false_iff]
    intro v hv
    rcases hins (i, v) hv with ⟨pe, hpe, ge, hge, h1, _, _, _, h5⟩
    have hpe2 : pe.2 = pred.getD i "" := by
      obtain ⟨pi, pt⟩ := pe
      simp only at h1
      subst h1
      have := mem_enum_getElem hpe
      rw [List.getD_eq_getElem?_getD, this]
      rfl
    have hge2 : ge.2 = gt.getD ge.1 "" := by
      obtain ⟨gi, gtx⟩ := ge
      have := mem_enum_getElem hge
      rw [List.getD_eq_getElem?_getD, this]
      rfl
    have hlt := hsim ge.1 (mem_enum_lt hge)
    rw [← hpe2, ← hge2] at hlt
    exact absurd h5 (not_le.mpr hlt)
  have hm12 : hasKeyB ((exactPass pred gt).1 ++ ins) i = false := by
    rw [hasKeyB_append, hnoexact, hni]
    rfl
  have hkey := htot i hi
  rw [hM] at hkey ⊢
  rw [mfind_append_right hm12]
  rw [hasKeyB_append, hm12] at hkey
  simp only [Bool.false_or] at hkey
  rcases mfind_isSome_of_hasKey hkey with ⟨v, hv⟩
  have hmem := mfind_mem hv
  have hv1 : v = -1 := (hext _ hmem).2.1
  rw [hv1] at hv
  exact hv

/-! ## The exact-match pass on identical label lists -/

theorem findFirstUnusedFrom_hit :
    ∀ (ts : List String) (off j : ℕ) (u : List ℕ) (txt : String),
    (∀ x, off ≤ x → x < off + j → x ∈ u) → (off + j ∉ u) → ts[j]? = some txt →
    findFirstUnusedFrom off ts u txt = some (off + j) := by
  intro ts
  induction ts with
  | nil => intro off j u txt _ _ hget; simp at hget
  | cons t ts ih =>
    intro off j u txt hbelow hfree hget
    cases j with
    | zero =>
      simp at hget
      unfold findFirstUnusedFrom
      rw [if_pos ⟨by simpa using hfree, hget⟩]
      simp
    | succ j =>
      have hoffu : off ∈ u := hbelow off (le_refl _) (by omega)
      unfold findFirstUnusedFrom
      rw [if_neg (by intro hcon; exact hcon.1 hoffu)]
      have := ih (off + 1) j u txt (fun x h1 h2 => hbelow x (by omega) (by omega))
        (by have : off + 1 + j = off + (j + 1) := by omega
            rw [this]; exact hfree)
        (by simpa using hget)
      rw [this]
      congr 1
      omega

theorem exactPassFrom_self :
    ∀ (ts L : List String) (k : ℕ) (m : List (ℕ × ℤ)) (u : List ℕ),
    L.drop k = ts → (∀ x, x ∈ u ↔ x < k) →
    (exactPassFrom k ts L m u).1 =
      m ++ (List.range' k ts.length).map (fun i : ℕ => (i, (i : ℤ))) := by
  intro ts
  induction ts with
  | nil => intro L k m u _ _; simp [exactPassFrom]
  | cons t ts ih =>
    intro L k m u hdrop hu
    have hklen : k < L.length := by
      by_contra hcon
      push_neg at hcon
      rw [List.drop_eq_nil_of_le hcon] at hdrop
      simp at hdrop
    have hcons := List.drop_eq_getElem_cons hklen
    rw [hcons] at hdrop
    injection hdrop with h1 h2
    have hget : L[k]? = some t := by
      rw [List.getElem?_eq_getElem hklen, h1]
    have hfind : findFirstUnusedFrom 0 L u t = some k := by
      have := findFirstUnusedFrom_hit L 0 k u t
        (fun x _ hx => (hu x).mpr (by omega)) (by rw [hu]; omega) (by simpa using hget)
      simpa using this
    simp only [exactPassFrom, hfind]
    have hu2 : ∀ x, x ∈ k :: u ↔ x < k + 1 := by
      intro x
      simp only [List.mem_cons, hu]
      omega
    rw [ih L (k + 1) (m ++ [(k, (k : ℤ))]) (k :: u) h2 hu2]
    simp only [List.length_cons]
    rw [List.range'_succ]
    simp

theorem exactPass_self (L : List String) :
    (exactPass L L).1 = (List.range L.length).map (fun i : ℕ => (i, (i : ℤ))) := by
  have := exactPassFrom_self L L 0 [] [] (by simp) (by simp)
  simpa [List.range_eq_range'] using this

/-- On verbatim-identical label lists the exact pass already resolves the full
correspondence, so `match_node` returns the identity mapping whatever the
embedding model or threshold. -/
theorem match_node_self (L : List String) (model : EmbedModel) (thr : ℚ) :
    match_node L L model thr = (List.range L.length).map (fun i : ℕ => (i, (i : ℤ))) := by
  rw [match_node_eq]
  rw [if_pos ⟨by rw [exactPass_self]; simp, by rw [exactPass_self]; simp⟩]
  exact exactPass_self L

/-- Control-flow form of the encode-call counter. -/
theorem match_node_encode_calls_eq (pred gt : List String) :
    match_node_encode_calls pred gt =
      if (exactPass pred gt).1.length = pred.length ∧
          (exactPass pred gt).1.length = gt.length then 0
      else
        if (pred.enum.filter (fun e => !(hasKeyB (exactPass pred gt).1 e.1))) ≠ [] ∧
            (gt.enum.filter (fun e => !((exactPass pred gt).2.contains e.1))) ≠ [] then 2
        else 0 := rfl

theorem match_node_encode_calls_self (L : List String) :
    match_node_encode_calls L L = 0 := by
  rw [match_node_encode_calls_eq]
  rw [if_pos ⟨by rw [exactPass_self]; simp, by rw [exactPass_self]; simp⟩]

theorem mfind_identity {n i : ℕ} (hi : i < n) :
    mfind ((List.range n).map (fun i : ℕ => (i, (i : ℤ)))) i = some (i : ℤ) := by
  apply mfind_eq_of_nodup_mem
  · rw [List.map_map]
    simpa [Function.comp_def] using List.nodup_range n
  · exact List.mem_map.mpr ⟨i, List.mem_range.mpr hi, rfl⟩

/-! ## LIS dynamic program: equivalence of the source fold with `dpList` -/

theorem getD_set_self {l : List ℕ} {i : ℕ} {v : ℕ} (h : i < l.length) :
    (l.set i v).getD i 0 = v := by
  rw [List.getD_eq_getElem?_getD, List.getElem?_set_self (by simpa using h)]
  rfl

theorem getD_set_ne {l : List ℕ} {i j : ℕ} {v : ℕ} (h : i ≠ j) :
    (l.set i v).getD j 0 = l.getD j 0 := by
  rw [List.getD_eq_getElem?_getD, List.getElem?_set_ne h, ← List.getD_eq_getElem?_getD]

theorem set_getD_self : ∀ (l : List ℕ) (i : ℕ), i < l.length → l.set i (l.getD i 0) = l
  | [], i, h => by simp at h
  | x :: xs, 0, _ => by simp
  | x :: xs, i + 1, h => by
    simp only [List.set_cons_succ, List.getD_cons_succ]
    rw [set_getD_self xs i (by simpa using h)]

/-- The imperative inner loop only rewrites position `i`, and its final value
is the pure fold of the running maximum. -/
theorem inner_foldl_set (mv : ℕ → ℤ) (i : ℕ) :
    ∀ (js : List ℕ) (dp : List ℕ), (∀ j ∈ js, j ≠ i) → i < dp.length →
    js.foldl (fun dp j =>
      if mv i = -1 ∨ mv j = -1 then dp
      else if mv j < mv i then dp.set i (max (dp.getD i 0) (dp.getD j 0 + 1)) else dp) dp
    = dp.set i (js.foldl (fun b j =>
      if mv i = -1 ∨ mv j = -1 then b
      else if mv j < mv i then max b (dp.getD j 0 + 1) else b) (dp.getD i 0)) := by
  intro js
  induction js with
  | nil =>
    intro dp _ hlen
    simp only [List.foldl_nil]
    rw [set_getD_self dp i hlen]
  | cons j js ih =>
    intro dp hne hlen
    have hji : j ≠ i := hne j (List.mem_cons_self _ _)
    simp only [List.foldl_cons]
    by_cases h1 : mv i = -1 ∨ mv j = -1
    · rw [if_pos h1, if_pos h1]
      exact ih dp (fun x hx => hne x (List.mem_cons_of_mem _ hx)) hlen
    · rw [if_neg h1, if_neg h1]
      by_cases h2 : mv j < mv i
      · rw [if_pos h2, if_pos h2]
        rw [ih (dp.set i (max (dp.getD i 0) (dp.getD j 0 + 1)))
          (fun x hx => hne x (List.mem_cons_of_mem _ hx)) (by simpa using hlen)]
        rw [List.set_set]
        rw [getD_set_self hlen]
        congr 1
        apply List.foldl_ext
        intro b x hx
        rw [getD_set_ne (fun hcon => hne x (List.mem_cons_of_mem _ hx) hcon.symm)]
      · rw [if_neg h2, if_neg h2]
        exact ih dp (fun x hx => hne x (List.mem_cons_of_mem _ hx)) hlen

theorem dpList_length (mv : ℕ → ℤ) : ∀ n, (dpList mv n).length = n := by
  intro n
  induction n with
  | zero => rfl
  | succ n ih => simp [dpList, ih]

/-- The source's nested fold computes exactly `dpList`. -/
theorem dp_source_eq (mv : ℕ → ℤ) (len : ℕ) :
    (List.range len).foldl (fun dp i =>
      (List.range i).foldl (fun dp j =>
        if mv i = -1 ∨ mv j = -1 then dp
        else if mv j < mv i then dp.set i (max (dp.getD i 0) (dp.getD j 0 + 1)) else dp) dp)
      (List.replicate len 1) = dpList mv len := by
  suffices h : ∀ k, k ≤ len →
      (List.range k).foldl (fun dp i =>
        (List.range i).foldl (fun dp j =>
          if mv i = -1 ∨ mv j = -1 then dp
          else if mv j < mv i then dp.set i (max (dp.getD i 0) (dp.getD j 0 + 1)) else dp) dp)
        (List.replicate len 1) = dpList mv k ++ List.replicate (len - k) 1 by
    have := h len (le_refl _)
    simpa using this
  intro k
  induction k with
  | zero => intro _; simp [dpList]
  | succ k ih =>
    intro hk
    have hk' : k ≤ len := by omega
    rw [List.range_succ, List.foldl_append, ih hk']
    simp only [List.foldl_cons, List.foldl_nil]
    have hlen : k < (dpList mv k ++ List.replicate (len - k) 1).length := by
      rw [List.length_append, dpList_length, List.length_replicate]
      omega
    rw [inner_foldl_set mv k (List.range k) _ (fun j hj => by
      have := List.mem_range.mp hj; omega) hlen]
    have hgetk : (dpList mv k ++ List.replicate (len - k) 1).getD k 0 = 1 := by
      rw [List.getD_eq_getElem?_getD, List.getElem?_append_right (by rw [dpList_length])]
      rw [dpList_length]
      simp only [Nat.sub_self]
      rw [List.getElem?_replicate]
      rw [if_pos (by omega)]
      rfl
    have hgetj : ∀ j ∈ List.range k,
        (dpList mv k ++ List.replicate (len - k) 1).getD j 0 = (dpList mv k).getD j 0 := by
      intro j hj
      rw [List.getD_eq_getElem?_getD, List.getElem?_append_left
        (by rw [dpList_length]; exact List.mem_range.mp hj), ← List.getD_eq_getElem?_getD]
    have hfold : (List.range k).foldl (fun b j =>
        if mv k = -1 ∨ mv j = -1 then b
        else if mv j < mv k then
          max b ((dpList mv k ++ List.replicate (len - k) 1).getD j 0 + 1) else b)
        ((dpList mv k ++ List.replicate (len - k) 1).getD k 0) = dpInner mv (dpList mv k) k := by
      rw [hgetk]
      unfold dpInner
      apply List.foldl_ext
      intro b j hj
      rw [hgetj j hj]
    rw [hfold]
    have hset : (dpList mv k ++ List.replicate (len - k) 1).set k (dpInner mv (dpList mv k) k) =
        (dpList mv k ++ [dpInner mv (dpList mv k) k]) ++ List.replicate (len - (k + 1)) 1 := by
      have hrep : List.replicate (len - k) 1 = 1 :: List.replicate (len - (k + 1)) 1 := by
        have : len - k = (len - (k + 1)) + 1 := by omega
        rw [this, List.replicate_succ]
      rw [hrep]
      rw [List.set_append_right _ _ (by rw [dpList_length])]
      rw [dpList_length]
      simp
    rw [hset]
    simp [dpList]

/-! ## Casting the rational dp array to the natural-number one -/

theorem getD_map_cast (l : List ℕ) (i : ℕ) :
    (l.map (fun n : ℕ => (n : ℚ))).getD i 0 = ((l.getD i 0 : ℕ) : ℚ) := by
  simp [List.getD_eq_getElem?_getD]
  cases l[i]? <;> simp

theorem dpStep_cast (mv : ℕ → ℤ) (i j : ℕ) (dp : List ℕ) :
    (if mv i = -1 ∨ mv j = -1 then dp.map (fun n : ℕ => (n : ℚ))
     else if mv j < mv i then
       (dp.map (fun n : ℕ => (n : ℚ))).set i
         (max ((dp.map (fun n : ℕ => (n : ℚ))).getD i 0)
           ((dp.map (fun n : ℕ => (n : ℚ))).getD j 0 + 1))
     else dp.map (fun n : ℕ => (n : ℚ))) =
    (if mv i = -1 ∨ mv j = -1 then dp
     else if mv j < mv i then dp.set i (max (dp.getD i 0) (dp.getD j 0 + 1))
     else dp).map (fun n : ℕ => (n : ℚ)) := by
  by_cases h1 : mv i = -1 ∨ mv j = -1
  · rw [if_pos h1, if_pos h1]
  · rw [if_neg h1, if_neg h1]
    by_cases h2 : mv j < mv i
    · rw [if_pos h2, if_pos h2]
      rw [List.map_set, getD_map_cast, getD_map_cast]
      rw [← Nat.cast_one (R := ℚ), ← Nat.cast_add, ← Nat.cast_max]
    · rw [if_neg h2, if_neg h2]

theorem inner_fold_cast (mv : ℕ → ℤ) (i : ℕ) (js : List ℕ) (dp : List ℕ) :
    js.foldl (fun dp j =>
      if mv i = -1 ∨ mv j = -1 then dp
      else if mv j < mv i then dp.set i (max (dp.getD i 0) (dp.getD j 0 + 1)) else dp)
      (dp.map (fun n : ℕ => (n : ℚ))) =
    (js.foldl (fun dp j =>
      if mv i = -1 ∨ mv j = -1 then dp
      else if mv j < mv i then dp.set i (max (dp.getD i 0) (dp.getD j 0 + 1)) else dp)
      dp).map (fun n : ℕ => (n : ℚ)) := by
  induction js generalizing dp with
  | nil => rfl
  | cons j js ih =>
    rw [List.foldl_cons, List.foldl_cons, dpStep_cast, ih]

theorem dp_fold_cast (mv : ℕ → ℤ) (len : ℕ) :
    (List.range len).foldl (fun dp i =>
      (List.range i).foldl (fun dp j =>
        if mv i = -1 ∨ mv j = -1 then dp
        else if mv j < mv i then dp.set i (max (dp.getD i 0) (dp.getD j 0 + 1)) else dp) dp)
      (List.replicate len (1 : ℚ)) =
    ((List.range len).foldl (fun dp i =>
      (List.range i).foldl (fun dp j =>
        if mv i = -1 ∨ mv j = -1 then dp
        else if mv j < mv i then dp.set i (max (dp.getD i 0) (dp.getD j 0 + 1)) else dp) dp)
      (List.replicate len (1 : ℕ))).map (fun n : ℕ => (n : ℚ)) := by
  have hrep : List.replicate len (1 : ℚ) =
      (List.replicate len (1 : ℕ)).map (fun n : ℕ => (n : ℚ)) := by
    simp
  rw [hrep]
  generalize List.replicate len (1 : ℕ) = dp0
  generalize List.range len = is
  induction is generalizing dp0 with
  | nil => rfl
  | cons i is ih =>
    rw [List.foldl_cons, List.foldl_cons, inner_fold_cast]
    exact ih _

theorem foldl_max_cast (as : List ℕ) (a : ℕ) :
    (as.map (fun n : ℕ => (n : ℚ))).foldl max ((a : ℕ) : ℚ) = ((as.foldl max a : ℕ) : ℚ) := by
  induction as generalizing a with
  | nil => rfl
  | cons b bs ih =>
    rw [List.map_cons, List.foldl_cons, List.foldl_cons, ← Nat.cast_max, ih]

theorem max?_map_cast (l : List ℕ) :
    (l.map (fun n : ℕ => (n : ℚ))).max? = l.max?.map (fun n : ℕ => (n : ℚ)) := by
  cases l with
  | nil => rfl
  | cons a as =>
    show some ((as.map (fun n : ℕ => (n : ℚ))).foldl max ((a : ℕ) : ℚ)) = _
    rw [foldl_max_cast]
    rfl

/-! ## Fold-max helpers -/

theorem foldl_skip_id (mv : ℕ → ℤ) (i : ℕ) (prev : List ℕ) (h : mv i = -1) :
    ∀ (js : List ℕ) (a : ℕ), js.foldl (fun b j =>
      if mv i = -1 ∨ mv j = -1 then b
      else if mv j < mv i then max b (prev.getD j 0 + 1) else b) a = a := by
  intro js
  induction js with
  | nil => intro a; rfl
  | cons j js ih =>
    intro a
    simp only [List.foldl_cons]
    rw [if_pos (Or.inl h)]
    exact ih a

theorem foldl_condmax_init_le (P : ℕ → Prop) [DecidablePred P] (g : ℕ → ℕ) :
    ∀ (js : List ℕ) (a : ℕ),
    a ≤ js.foldl (fun b j => if P j then max b (g j) else b) a := by
  intro js
  induction js with
  | nil => intro a; exact le_refl a
  | cons j js ih =>
    intro a
    simp only [List.foldl_cons]
    by_cases h : P j
    · rw [if_pos h]
      exact le_trans (le_max_left _ _) (ih _)
    · rw [if_neg h]
      exact ih a

theorem foldl_condmax_ge (P : ℕ → Prop) [DecidablePred P] (g : ℕ → ℕ) :
    ∀ (js : List ℕ) (a : ℕ) (j : ℕ), j ∈ js → P j →
    g j ≤ js.foldl (fun b j => if P j then max b (g j) else b) a := by
  intro js
  induction js with
  | nil => intro a j hj; cases hj
  | cons x js ih =>
    intro a j hj hP
    simp only [List.foldl_cons]
    rcases List.mem_cons.mp hj with hj | hj
    · subst hj
      rw [if_pos hP]
      exact le_trans (le_max_right _ _) (foldl_condmax_init_le P g js _)
    · by_cases h : P x
      · rw [if_pos h]; exact ih _ j hj hP
      · rw [if_neg h]; exact ih a j hj hP

theorem foldl_condmax_cases (P : ℕ → Prop) [DecidablePred P] (g : ℕ → ℕ) :
    ∀ (js : List ℕ) (a : ℕ),
    js.foldl (fun b j => if P j then max b (g j) else b) a = a ∨
    ∃ j ∈ js, P j ∧ js.foldl (fun b j => if P j then max b (g j) else b) a = g j := by
  intro js
  induction js with
  | nil => intro a; exact Or.inl rfl
  | cons x js ih =>
    intro a
    simp only [List.foldl_cons]
    by_cases h : P x
    · rw [if_pos h]
      rcases ih (max a (g x)) with hc | ⟨j, hj, hP, hc⟩
      · rcases max_choice a (g x) with h1 | h1
        · exact Or.inl (by rw [hc, h1])
        · exact Or.inr ⟨x, List.mem_cons_self _ _, h, by rw [hc, h1]⟩
      · exact Or.inr ⟨j, List.mem_cons_of_mem _ hj, hP, hc⟩
    · rw [if_neg h]
      rcases ih a with hc | ⟨j, hj, hP, hc⟩
      · exact Or.inl hc
      · exact Or.inr ⟨j, List.mem_cons_of_mem _ hj, hP, hc⟩

theorem le_foldr_max : ∀ (l : List ℕ) (x : ℕ), x ∈ l → x ≤ l.foldr max 0 := by
  intro l
  induction l with
  | nil => intro x hx; cases hx
  | cons y l ih =>
    intro x hx
    simp only [List.foldr_cons]
    rcases List.mem_cons.mp hx with hx | hx
    · subst hx; exact le_max_left _ _
    · exact le_trans (ih x hx) (le_max_right _ _)

theorem foldr_max_cases : ∀ (l : List ℕ), l.foldr max 0 = 0 ∨ l.foldr max 0 ∈ l := by
  intro l
  induction l with
  | nil => exact Or.inl rfl
  | cons y l ih =>
    simp only [List.foldr_cons]
    rcases max_choice y (l.foldr max 0) with h | h
    · exact Or.inr (by rw [h]; exact List.mem_cons_self _ _)
    · rcases ih with h0 | hm
      · rw [h, h0]
        exact Or.inl rfl
      · exact Or.inr (by rw [h]; exact List.mem_cons_of_mem _ hm)

/-! ## `dpVal` facts -/

theorem dpList_prefix_getD (mv : ℕ → ℤ) {n m : ℕ} (hnm : n ≤ m) :
    ∀ i, i < n → (dpList mv m).getD i 0 = (dpList mv n).getD i 0 := by
  induction m with
  | zero =>
    intro i hi
    have : n = 0 := by omega
    rw [this]
  | succ m ih =>
    intro i hi
    by_cases h : n = m + 1
    · rw [h]
    · have hnm' : n ≤ m := by omega
      rw [← ih hnm' i hi]
      show (dpList mv (m + 1)).getD i 0 = _
      simp only [dpList]
      rw [List.getD_eq_getElem?_getD, List.getElem?_append_left
        (by rw [dpList_length]; omega), ← List.getD_eq_getElem?_getD]

theorem dpVal_eq_dpInner (mv : ℕ → ℤ) {n i : ℕ} (hi : i < n) :
    dpVal mv n i = dpInner mv (dpList mv i) i := by
  unfold dpVal
  rw [dpList_prefix_getD mv (show i + 1 ≤ n by omega) i (by omega)]
  simp only [dpList]
  rw [List.getD_eq_getElem?_getD, List.getElem?_append_right (by rw [dpList_length])]
  rw [dpList_length]
  simp

/-- `dpInner` as a single conditional-max fold. -/
theorem dpInner_condmax (mv : ℕ → ℤ) (prev : List ℕ) (i : ℕ) :
    dpInner mv prev i = (List.range i).foldl (fun b j =>
      if mv i ≠ -1 ∧ mv j ≠ -1 ∧ mv j < mv i then max b (prev.getD j 0 + 1) else b) 1 := by
  unfold dpInner
  apply List.foldl_ext
  intro b j _
  by_cases h1 : mv i = -1 ∨ mv j = -1
  · rw [if_pos h1, if_neg (by tauto)]
  · rw [if_neg h1]
    push_neg at h1
    by_cases h2 : mv j < mv i
    · rw [if_pos h2, if_pos ⟨h1.1, h1.2, h2⟩]
    · rw [if_neg h2, if_neg (by tauto)]

theorem dpVal_pos (mv : ℕ → ℤ) {n i : ℕ} (hi : i < n) : 1 ≤ dpVal mv n i := by
  rw [dpVal_eq_dpInner mv hi, dpInner_condmax]
  exact foldl_condmax_init_le _ _ _ 1

theorem dpVal_unmatched (mv : ℕ → ℤ) {n i : ℕ} (hi : i < n) (h : mv i = -1) :
    dpVal mv n i = 1 := by
  rw [dpVal_eq_dpInner mv hi]
  unfold dpInner
  exact foldl_skip_id mv i (dpList mv i) h (List.range i) 1

/-- Any strictly increasing bounded index list is a sublist of `range n`. -/
theorem pairwise_lt_sublist_range :
    ∀ (n : ℕ) (js : List ℕ), js.Pairwise (· < ·) → (∀ j ∈ js, j < n) →
    js.Sublist (List.range n) := by
  intro n
  induction n with
  | zero =>
    intro js _ hb
    cases js with
    | nil => simp
    | cons x xs => exact absurd (hb x (List.mem_cons_self _ _)) (by omega)
  | succ n ih =>
    intro js hpw hb
    rcases js.eq_nil_or_concat with rfl | ⟨l, a, rfl⟩
    · simp
    · rw [List.concat_eq_append] at hpw hb ⊢
      have hcross := (List.pairwise_append.mp hpw).2.2
      have hpl := (List.pairwise_append.mp hpw).1
      have hla : ∀ x ∈ l, x < a := fun x hx => hcross x hx a (by simp)
      have ha : a < n + 1 := hb a (by simp)
      rw [List.range_succ]
      by_cases han : a = n
      · subst han
        exact List.Sublist.append (ih l hpl (fun x hx => lt_of_lt_of_le (hla x hx) (by omega)))
          (List.Sublist.refl _)
      · have hall : ∀ j ∈ l ++ [a], j < n := by
          intro j hj
          rcases List.mem_append.mp hj with hj | hj
          · exact lt_of_lt_of_le (hla j hj) (by omega)
          · simp at hj; omega
        exact List.Sublist.trans (ih _ hpw hall) (List.sublist_append_left _ _)

/-- Every valid chain is counted by `lisMatched`. -/
theorem lisMatched_ge_chain (mv : ℕ → ℤ) (len : ℕ) (s : List ℕ)
    (hc : IndexChain mv s) (hb : ∀ j ∈ s, j < len) : s.length ≤ lisMatched mv len := by
  unfold lisMatched
  apply le_foldr_max
  rw [List.mem_map]
  refine ⟨s, ?_, rfl⟩
  rw [List.mem_filter, List.mem_sublists]
  refine ⟨pairwise_lt_sublist_range len s hc.1 hb, ?_⟩
  rw [Bool.and_eq_true, List.all_eq_true]
  exact ⟨fun j hj => by simpa using hc.2.1 j hj, by simpa using hc.2.2⟩

/-- `lisMatched` is either zero or the length of some valid chain. -/
theorem lisMatched_cases (mv : ℕ → ℤ) (len : ℕ) :
    lisMatched mv len = 0 ∨
    ∃ s, IndexChain mv s ∧ (∀ j ∈ s, j < len) ∧ s ≠ [] ∧ s.length = lisMatched mv len := by
  set L := ((List.range len).sublists.filter (fun s =>
    s.all (fun j => decide (mv j ≠ -1)) && decide ((s.map mv).Chain' (· < ·)))).map
    List.length with hL
  have hlis : lisMatched mv len = L.foldr max 0 := rfl
  rcases foldr_max_cases L with h0 | hmem
  · exact Or.inl (by rw [hlis, h0])
  · rw [hlis]
    rw [hL] at hmem
    rcases List.mem_map.mp hmem with ⟨s, hs, hlen⟩
    rw [List.mem_filter, List.mem_sublists] at hs
    obtain ⟨hsub, hcond⟩ := hs
    rw [Bool.and_eq_true, List.all_eq_true] at hcond
    by_cases hnil : s = []
    · subst hnil
      exact Or.inl (by rw [hL]; exact hlen.symm)
    · refine Or.inr ⟨s, ⟨?_, ?_, ?_⟩, ?_, hnil, by rw [hL]; exact hlen⟩
      · exact (List.pairwise_lt_range len).sublist hsub
      · intro j hj
        simpa using hcond.1 j hj
      · simpa using hcond.2
      · intro j hj
        exact List.mem_range.mp (hsub.subset hj)

theorem lisMatched_le_len (mv : ℕ → ℤ) (len : ℕ) : lisMatched mv len ≤ len := by
  rcases lisMatched_cases mv len with h | ⟨s, hc, hb, _, hlen⟩
  · omega
  · rw [← hlen]
    have hle := List.Sublist.length_le (pairwise_lt_sublist_range len s hc.1 hb)
    simpa using hle

/-! ## `dpVal` against chains -/

theorem dpVal_ge_chain (mv : ℕ → ℤ) (n : ℕ) :
    ∀ (js : List ℕ) (i : ℕ), IndexChain mv (js ++ [i]) → (∀ j ∈ js ++ [i], j < n) →
    js.length + 1 ≤ dpVal mv n i := by
  intro js
  induction js using List.reverseRecOn with
  | nil =>
    intro i hc hb
    simpa using dpVal_pos mv (hb i (by simp))
  | append_singleton l a ih =>
    intro i hc hb
    obtain ⟨hpw, hmatch, hchain⟩ := hc
    have hai : a < i := (List.pairwise_append.mp hpw).2.2 a (by simp) i (by simp)
    have hchain2 : ((l ++ [a]).map mv ++ [i].map mv).Chain' (· < ·) := by
      rw [← List.map_append]; exact hchain
    have hmvai : mv a < mv i := by
      have hlink := (List.chain'_append.mp hchain2).2.2
      apply hlink (mv a) ?_ (mv i) ?_
      · rw [List.map_append]
        simp [List.getLast?_concat]
      · simp
    have hc2 : IndexChain mv (l ++ [a]) := by
      refine ⟨hpw.sublist (List.sublist_append_left _ _), ?_, ?_⟩
      · intro j hj
        exact hmatch j (List.mem_append_left _ hj)
      · exact (List.chain'_append.mp hchain2).1
    have hb2 : ∀ j ∈ l ++ [a], j < n := fun j hj => hb j (List.mem_append_left _ hj)
    have hIH := ih a hc2 hb2
    have hi : i < n := hb i (by simp)
    have hstep : dpVal mv n a + 1 ≤ dpVal mv n i := by
      rw [dpVal_eq_dpInner mv hi, dpInner_condmax]
      have hga := foldl_condmax_ge (fun j => mv i ≠ -1 ∧ mv j ≠ -1 ∧ mv j < mv i)
        (fun j => (dpList mv i).getD j 0 + 1) (List.range i) 1 a
        (List.mem_range.mpr hai)
        ⟨hmatch i (by simp), hmatch a (by simp), hmvai⟩
      have hpre : (dpList mv i).getD a 0 = dpVal mv n a :=
        (dpList_prefix_getD mv (le_of_lt hi) a hai).symm
      have hga2 : (dpList mv i).getD a 0 + 1 ≤ (List.range i).foldl (fun b j =>
        if mv i ≠ -1 ∧ mv j ≠ -1 ∧ mv j < mv i then
          max b ((dpList mv i).getD j 0 + 1) else b) 1 := hga
      rw [hpre] at hga2
      exact hga2
    simp only [List.length_append, List.length_singleton]
    omega

theorem dpVal_chain_exists (mv : ℕ → ℤ) (n : ℕ) :
    ∀ i, i < n → mv i ≠ -1 →
    ∃ js, IndexChain mv (js ++ [i]) ∧ (∀ j ∈ js ++ [i], j ≤ i) ∧
      js.length + 1 = dpVal mv n i := by
  intro i
  induction i using Nat.strong_induction_on with
  | _ i ih =>
    intro hi hmv
    rw [dpVal_eq_dpInner mv hi, dpInner_condmax]
    rcases foldl_condmax_cases (fun j => mv i ≠ -1 ∧ mv j ≠ -1 ∧ mv j < mv i)
      (fun j => (dpList mv i).getD j 0 + 1) (List.range i) 1 with hcase | ⟨j, hjmem, hP, hcase⟩
    · refine ⟨[], ⟨List.pairwise_singleton _ _, ?_, List.chain'_singleton _⟩, ?_, ?_⟩
      · intro j hj
        simp at hj
        subst hj
        exact hmv
      · intro j hj
        simp at hj
        subst hj
        exact le_refl _
      · rw [hcase]
        rfl
    · have hj : j < i := List.mem_range.mp hjmem
      have hdp : (dpList mv i).getD j 0 = dpVal mv n j :=
        (dpList_prefix_getD mv (le_of_lt hi) j hj).symm
      obtain ⟨js2, hc2, hb2, hlen2⟩ := ih j hj (lt_trans hj hi) hP.2.1
      obtain ⟨hpw2, hm2, hch2⟩ := hc2
      refine ⟨js2 ++ [j], ⟨?_, ?_, ?_⟩, ?_, ?_⟩
      · rw [List.pairwise_append]
        refine ⟨hpw2, List.pairwise_singleton _ _, ?_⟩
        intro x hx y hy
        simp at hy
        subst hy
        exact lt_of_le_of_lt (hb2 x hx) hj
      · intro x hx
        rcases List.mem_append.mp hx with hx | hx
        · exact hm2 x hx
        · simp at hx
          subst hx
          exact hmv
      · rw [List.map_append]
        have hch3 : ((js2 ++ [j]).map mv ++ [i].map mv).Chain' (· < ·) := by
          rw [List.chain'_append]
          refine ⟨hch2, List.chain'_singleton _, ?_⟩
          intro x hx y hy
          simp at hy
          subst hy
          rw [List.map_append] at hx
          simp [List.getLast?_concat] at hx
          subst hx
          exact hP.2.2
        simpa using hch3
      · intro x hx
        rcases List.mem_append.mp hx with hx | hx
        · rcases List.mem_append.mp hx with hx | hx
          · exact le_trans (hb2 x (List.mem_append_left _ hx)) (le_of_lt hj)
          · simp at hx
            subst hx
            exact le_of_lt hj
        · simp at hx
          subst hx
          exact le_refl _
      · rw [hcase]
        show (js2 ++ [j]).length + 1 = (dpList mv i).getD j 0 + 1
        rw [hdp]
        simp only [List.length_append, List.length_singleton]
        omega

/-- The maximum of the final dp array is `max 1 (lisMatched)`: the source's
`correct_count`, including its quirk of counting `1` even when nothing
matched. -/
theorem dp_max_eq (mv : ℕ → ℤ) (len : ℕ) (hlen : 1 ≤ len) :
    (dpList mv len).max? = some (max 1 (lisMatched mv len)) := by
  have hmemdp : ∀ i, i < len → dpVal mv len i ∈ dpList mv len := by
    intro i hi
    have hl : i < (dpList mv len).length := by rw [dpList_length]; exact hi
    rw [dpVal, List.getD_eq_getElem?_getD, List.getElem?_eq_getElem hl]
    simp only [Option.getD_some]
    exact List.getElem_mem hl
  have hvals : ∀ b ∈ dpList mv len, ∃ i, i < len ∧ b = dpVal mv len i := by
    intro b hb
    rcases List.mem_iff_getElem.mp hb with ⟨i, hil, hbi⟩
    have hil' : i < len := by rw [dpList_length] at hil; exact hil
    refine ⟨i, hil', ?_⟩
    rw [dpVal, List.getD_eq_getElem?_getD, List.getElem?_eq_getElem hil]
    rw [← hbi]
    rfl
  have hub : ∀ i, i < len → dpVal mv len i ≤ max 1 (lisMatched mv len) := by
    intro i hi
    by_cases hmv : mv i = -1
    · rw [dpVal_unmatched mv hi hmv]
      exact le_max_left _ _
    · obtain ⟨js, hc, hb, hlen2⟩ := dpVal_chain_exists mv len i hi hmv
      have hbound : ∀ j ∈ js ++ [i], j < len := by
        intro j hj
        have := hb j hj
        omega
      have hge := lisMatched_ge_chain mv len (js ++ [i]) hc hbound
      calc dpVal mv len i = js.length + 1 := hlen2.symm
        _ ≤ lisMatched mv len := by simpa using hge
        _ ≤ max 1 (lisMatched mv len) := le_max_right _ _
  have hkey : ∃ i, i < len ∧ dpVal mv len i = max 1 (lisMatched mv len) := by
    rcases lisMatched_cases mv len with h0 | ⟨s, hc, hbound, hnil, hslen⟩
    · have hall : ∀ i, i < len → mv i = -1 := by
        intro i hi
        by_contra hne
        have hchain : IndexChain mv [i] :=
          ⟨List.pairwise_singleton _ _, fun j hj => by simp at hj; subst hj; exact hne,
            List.chain'_singleton _⟩
        have := lisMatched_ge_chain mv len [i] hchain
          (fun j hj => by simp at hj; subst hj; exact hi)
        simp only [List.length_singleton] at this
        omega
      refine ⟨0, by omega, ?_⟩
      rw [dpVal_unmatched mv (by omega) (hall 0 (by omega)), h0]
      simp
    · rcases s.eq_nil_or_concat with rfl | ⟨l, a, rfl⟩
      · exact absurd rfl hnil
      · rw [List.concat_eq_append] at hc hbound hslen
        have ha : a < len := hbound a (by simp)
        have hge : l.length + 1 ≤ dpVal mv len a := dpVal_ge_chain mv len l a hc hbound
        have hmva : mv a ≠ -1 := hc.2.1 a (by simp)
        obtain ⟨js, hc2, hb2, hlen2⟩ := dpVal_chain_exists mv len a ha hmva
        have hle : dpVal mv len a ≤ lisMatched mv len := by
          have hbound2 : ∀ j ∈ js ++ [a], j < len := by
            intro j hj
            have := hb2 j hj
            omega
          have := lisMatched_ge_chain mv len (js ++ [a]) hc2 hbound2
          simp only [List.length_append, List.length_singleton] at this
          omega
        have hlis1 : 1 ≤ lisMatched mv len := by
          rw [← hslen]
          simp only [List.length_append, List.length_singleton]
          omega
        have heq : dpVal mv len a = lisMatched mv len := by
          have h1 : (l ++ [a]).length = l.length + 1 := by simp
          omega
        refine ⟨a, ha, ?_⟩
        rw [heq, max_eq_right hlis1]
  rw [List.max?_eq_some_iff (fun a => Nat.le_refl a) (fun a b => max_choice a b)
    (fun a b c => Nat.max_le)]
  obtain ⟨i0, hi0, hdpi0⟩ := hkey
  refine ⟨by rw [← hdpi0]; exact hmemdp i0 hi0, ?_⟩
  intro b hb
  obtain ⟨i, hi, rfl⟩ := hvals b hb
  exact hub i hi

/-! ## Characterisation of order-sensitive `t_eval_plan` -/

/-- Order-sensitive `t_eval_plan` with the source's fold exposed. -/
theorem t_eval_plan_true_raw0 (pred gt : List String) (model : EmbedModel) :
    t_eval_plan pred gt model true =
      match ((List.range pred.length).foldl (fun dp i =>
        (List.range i).foldl (fun dp j =>
          if mval (match_node pred gt model match_threshold_default) i = -1 ∨
              mval (match_node pred gt model match_threshold_default) j = -1 then dp
          else if mval (match_node pred gt model match_threshold_default) j <
              mval (match_node pred gt model match_threshold_default) i then
            dp.set i (max (dp.getD i 0) (dp.getD j 0 + 1))
          else dp) dp)
        (List.replicate pred.length 1)).max? with
      | none => .error .emptyMax
      | some c =>
        if gt.length = 0 then .error .divByZero
        else
          if (c : ℚ) / (gt.length : ℚ) + (c : ℚ) / (pred.length : ℚ) = 0 then .error .divByZero
          else .ok ⟨(c : ℚ) / (pred.length : ℚ), (c : ℚ) / (gt.length : ℚ),
            2 * ((c : ℚ) / (gt.length : ℚ)) * ((c : ℚ) / (pred.length : ℚ)) /
              ((c : ℚ) / (gt.length : ℚ) + (c : ℚ) / (pred.length : ℚ))⟩ := rfl

/-- Order-sensitive `t_eval_plan`, with the dynamic program exposed. -/
theorem t_eval_plan_true_raw (pred gt : List String) (model : EmbedModel) :
    t_eval_plan pred gt model true =
      match (dpList (mval (match_node pred gt model match_threshold_default))
          pred.length).max? with
      | none => .error .emptyMax
      | some c =>
        if gt.length = 0 then .error .divByZero
        else
          if (c : ℚ) / (gt.length : ℚ) + (c : ℚ) / (pred.length : ℚ) = 0 then .error .divByZero
          else .ok ⟨(c : ℚ) / (pred.length : ℚ), (c : ℚ) / (gt.length : ℚ),
            2 * ((c : ℚ) / (gt.length : ℚ)) * ((c : ℚ) / (pred.length : ℚ)) /
              ((c : ℚ) / (gt.length : ℚ) + (c : ℚ) / (pred.length : ℚ))⟩ := by
  rw [t_eval_plan_true_raw0, dp_fold_cast, dp_source_eq, max?_map_cast]
  cases hm : (dpList (mval (match_node pred gt model match_threshold_default))
      pred.length).max? with
  | none => rfl
  | some c => rfl

/-- Every non-`-1` value of the correspondence is a valid reference index. -/
theorem mval_matched_range (pred gt : List String) (model : EmbedModel) (thr : ℚ) (i : ℕ)
    (h : mval (match_node pred gt model thr) i ≠ -1) :
    0 ≤ mval (match_node pred gt model thr) i ∧
      mval (match_node pred gt model thr) i < (gt.length : ℤ) := by
  by_cases hf : ∃ v, mfind (match_node pred gt model thr) i = some v
  · obtain ⟨v, hv⟩ := hf
    have hmem := mfind_mem hv
    have hval : mval (match_node pred gt model thr) i = v := by
      unfold mval
      rw [hv]
      rfl
    rcases ((match_node_entry_facts pred gt model thr).1 _ hmem).2 with h1 | h1
    · rw [hval] at h
      exact absurd h1 h
    · rw [hval]
      exact h1
  · push_neg at hf
    have hnone : mfind (match_node pred gt model thr) i = none := by
      cases hm : mfind (match_node pred gt model thr) i with
      | none => rfl
      | some v => exact absurd hm (hf v)
    have hneg : mval (match_node pred gt model thr) i = -1 := by
      unfold mval
      rw [hnone]
      rfl
    exact absurd hneg h

/-- A strictly increasing integer list inside `[lo, G)` has length at most
`G - lo`. -/
theorem pairwise_int_length_le :
    ∀ (s : List ℤ) (lo G : ℤ), s.Pairwise (· < ·) → (∀ v ∈ s, lo ≤ v ∧ v < G) →
    (s.length : ℤ) ≤ max 0 (G - lo) := by
  intro s
  induction s with
  | nil => intro lo G _ _; simp
  | cons v s ih =>
    intro lo G hpw hb
    rw [List.pairwise_cons] at hpw
    have hv := hb v (List.mem_cons_self _ _)
    have htail : ∀ w ∈ s, v + 1 ≤ w ∧ w < G := by
      intro w hw
      exact ⟨by have := hpw.1 w hw; omega, (hb w (List.mem_cons_of_mem _ hw)).2⟩
    have := ih (v + 1) G hpw.2 htail
    simp only [List.length_cons]
    push_cast
    omega

/-- `lisMatched` over a `match_node` correspondence is bounded by the number
of reference labels. -/
theorem lisMatched_le_gt (pred gt : List String) (model : EmbedModel) :
    lisMatched (mval (match_node pred gt model match_threshold_default)) pred.length ≤
      gt.length := by
  rcases lisMatched_cases (mval (match_node pred gt model match_threshold_default))
    pred.length with h | ⟨s, hc, _, _, hslen⟩
  · omega
  · rw [← hslen]
    have hmapped : ∀ v ∈ s.map (mval (match_node pred gt model match_threshold_default)),
        0 ≤ v ∧ v < (gt.length : ℤ) := by
      intro v hv
      rcases List.mem_map.mp hv with ⟨j, hj, hjv⟩
      rw [← hjv]
      exact mval_matched_range pred gt model match_threshold_default j (hc.2.1 j hj)
    have hpw : (s.map (mval (match_node pred gt model match_threshold_default))).Pairwise
        (· < ·) := by
      rw [← List.chain'_iff_pairwise]
      exact hc.2.2
    have := pairwise_int_length_le _ 0 (gt.length : ℤ) hpw hmapped
    rw [List.length_map] at this
    omega

/-- The exact value of order-sensitive `t_eval_plan` on non-empty inputs:
`correct = max 1 (lisMatched)`. -/
theorem t_eval_plan_true_spec (pred gt : List String) (model : EmbedModel)
    (hp : pred ≠ []) (hg : gt ≠ []) :
    t_eval_plan pred gt model true =
      .ok ⟨((max 1 (lisMatched (mval (match_node pred gt model match_threshold_default))
            pred.length) : ℕ) : ℚ) / (pred.length : ℚ),
        ((max 1 (lisMatched (mval (match_node pred gt model match_threshold_default))
            pred.length) : ℕ) : ℚ) / (gt.length : ℚ),
        2 * (((max 1 (lisMatched (mval (match_node pred gt model match_threshold_default))
            pred.length) : ℕ) : ℚ) / (gt.length : ℚ)) *
          (((max 1 (lisMatched (mval (match_node pred gt model match_threshold_default))
            pred.length) : ℕ) : ℚ) / (pred.length : ℚ)) /
          ((((max 1 (lisMatched (mval (match_node pred gt model match_threshold_default))
            pred.length) : ℕ) : ℚ) / (gt.length : ℚ)) +
            (((max 1 (lisMatched (mval (match_node pred gt model match_threshold_default))
            pred.length) : ℕ) : ℚ) / (pred.length : ℚ)))⟩ := by
  have hplen : 1 ≤ pred.length := List.length_pos.mpr hp
  have hglen : 1 ≤ gt.length := List.length_pos.mpr hg
  rw [t_eval_plan_true_raw]
  rw [dp_max_eq _ _ hplen]
  set c := max 1 (lisMatched (mval (match_node pred gt model match_threshold_default))
    pred.length) with hc
  have hc1 : (1 : ℚ) ≤ (c : ℚ) := by
    rw [hc]
    exact_mod_cast le_max_left 1 _
  have hppos : (0 : ℚ) < (pred.length : ℚ) := by exact_mod_cast hplen
  have hgpos : (0 : ℚ) < (gt.length : ℚ) := by exact_mod_cast hglen
  have hsum : (0 : ℚ) < (c : ℚ) / (gt.length : ℚ) + (c : ℚ) / (pred.length : ℚ) := by
    have h1 : (0 : ℚ) < (c : ℚ) / (pred.length : ℚ) := div_pos (by linarith) hppos
    have h2 : (0 : ℚ) ≤ (c : ℚ) / (gt.length : ℚ) := div_nonneg (by linarith) (le_of_lt hgpos)
    linarith
  show (if gt.length = 0 then Except.error EvalErr.divByZero else _) = _
  rw [if_neg (by omega)]
  rw [if_neg (ne_of_gt hsum)]

/-! ## Vertex-list and Kahn-enumeration lemmas -/

theorem firstDedup_append_of_subset :
    ∀ (l rest : List ℕ), l.Nodup → (∀ x ∈ rest, x ∈ l) → firstDedup (l ++ rest) = l := by
  intro l
  induction l with
  | nil =>
    intro rest _ hsub
    have : rest = [] := List.eq_nil_iff_forall_not_mem.mpr (fun x hx => by simpa using hsub x hx)
    rw [this]
    simp [firstDedup]
  | cons a l ih =>
    intro rest hnd hsub
    rw [List.nodup_cons] at hnd
    rw [List.cons_append, firstDedup]
    congr 1
    rw [List.filter_append]
    have hl : l.filter (fun b => b ≠ a) = l := by
      rw [List.filter_eq_self]
      intro b hb
      simp only [ne_eq, decide_not, Bool.not_eq_eq_eq_not, Bool.not_true, decide_eq_false_iff_not]
      intro hcon
      exact hnd.1 (hcon ▸ hb)
    rw [hl]
    rw [ih (rest.filter (fun b => b ≠ a)) hnd.2]
    intro x hx
    rw [List.mem_filter] at hx
    have hxal := hsub x hx.1
    rcases List.mem_cons.mp hxal with h | h
    · exfalso
      have := hx.2
      simp only [ne_eq, decide_not, Bool.not_eq_eq_eq_not, Bool.not_true,
        decide_eq_false_iff_not] at this
      exact this h
    · exact h

theorem firstDedup_mem : ∀ (l : List ℕ) (x : ℕ), x ∈ firstDedup l ↔ x ∈ l := by
  intro l
  induction l using firstDedup.induct with
  | case1 => intro x; simp [firstDedup]
  | case2 a l ih =>
    intro x
    rw [firstDedup]
    rw [List.mem_cons, List.mem_cons, ih]
    by_cases hx : x = a
    · simp [hx]
    · simp only [List.mem_filter, hx, false_or]
      constructor
      · exact fun h => h.1
      · intro h
        exact ⟨h, by simpa using hx⟩

theorem vertsOf_eq_range (n : ℕ) (edges : List (ℕ × ℕ))
    (hval : ∀ e ∈ edges, e.1 < n ∧ e.2 < n) : vertsOf n edges = List.range n := by
  unfold vertsOf
  apply firstDedup_append_of_subset _ _ (List.nodup_range n)
  intro x hx
  rcases List.mem_flatMap.mp hx with ⟨e, he, hxe⟩
  rw [List.mem_range]
  simp only [List.mem_cons, List.not_mem_nil, or_false] at hxe
  rcases hxe with h | h
  · exact h ▸ (hval e he).1
  · exact h ▸ (hval e he).2

theorem mem_vertsOf_of_endpoint (n : ℕ) (edges : List (ℕ × ℕ)) (e : ℕ × ℕ)
    (he : e ∈ edges) : e.1 ∈ vertsOf n edges ∧ e.2 ∈ vertsOf n edges := by
  unfold vertsOf
  rw [firstDedup_mem, firstDedup_mem]
  constructor <;> [refine List.mem_append_right _ ?_; refine List.mem_append_right _ ?_] <;>
    exact List.mem_flatMap.mpr ⟨e, he, by simp⟩

theorem sourcesOf_mem {rem : List ℕ} {edges : List (ℕ × ℕ)} {v : ℕ}
    (h : v ∈ sourcesOf rem edges) : v ∈ rem :=
  List.mem_of_mem_filter h

theorem sourcesOf_no_incoming {rem : List ℕ} {edges : List (ℕ × ℕ)} {v : ℕ}
    (h : v ∈ sourcesOf rem edges) : ∀ e ∈ edges, ¬(e.2 = v ∧ e.1 ∈ rem) := by
  unfold sourcesOf at h
  rw [List.mem_filter] at h
  intro e he hcon
  have hany : edges.any (fun e => e.2 == v && rem.contains e.1) = true :=
    List.any_eq_true.mpr ⟨e, he, by
      rw [Bool.and_eq_true, beq_iff_eq]
      exact ⟨hcon.1, by simp; exact hcon.2⟩⟩
  have h2 := h.2
  rw [hany] at h2
  cases h2

theorem kahnAux_perm :
    ∀ (fuel : ℕ) (edges : List (ℕ × ℕ)) (rem : List ℕ) (s : List ℕ),
    s ∈ kahnAux edges fuel rem → fuel = rem.length → s.Perm rem := by
  intro fuel
  induction fuel with
  | zero =>
    intro edges rem s hs hlen
    unfold kahnAux at hs
    by_cases h : rem = []
    · rw [if_pos h] at hs
      simp at hs
      rw [hs, h]
    · rw [if_neg h] at hs
      cases hs
  | succ fuel ih =>
    intro edges rem s hs hlen
    unfold kahnAux at hs
    by_cases h : rem = []
    · rw [h] at hlen
      simp at hlen
    · rw [if_neg h] at hs
      rcases List.mem_flatMap.mp hs with ⟨v, hv, hsv⟩
      rcases List.mem_map.mp hsv with ⟨s', hs', hss⟩
      have hvrem := sourcesOf_mem (List.mem_reverse.mp hv)
      have hlen' : fuel = (rem.erase v).length := by
        rw [List.length_erase_of_mem hvrem]
        omega
      have hperm := ih edges (rem.erase v) s' hs' hlen'
      rw [← hss]
      exact (hperm.cons v).trans (List.perm_cons_erase hvrem).symm

theorem kahnAux_nil_of_cycle (edges : List (ℕ × ℕ)) (C : List ℕ) (hC : C ≠ [])
    (hin : ∀ v ∈ C, ∃ w ∈ C, (w, v) ∈ edges) :
    ∀ (fuel : ℕ) (rem : List ℕ), (∀ v ∈ C, v ∈ rem) → kahnAux edges fuel rem = [] := by
  intro fuel
  induction fuel with
  | zero =>
    intro rem hsub
    unfold kahnAux
    rw [if_neg]
    intro hcon
    rcases List.exists_mem_of_ne_nil C hC with ⟨v, hv⟩
    have := hsub v hv
    rw [hcon] at this
    cases this
  | succ fuel ih =>
    intro rem hsub
    unfold kahnAux
    rw [if_neg]
    · apply List.eq_nil_iff_forall_not_mem.mpr
      intro s hs
      rcases List.mem_flatMap.mp hs with ⟨v, hv, hsv⟩
      have hvC : v ∉ C := by
        intro hvC
        rcases hin v hvC with ⟨w, hwC, hwv⟩
        exact sourcesOf_no_incoming (List.mem_reverse.mp hv) (w, v) hwv ⟨rfl, hsub w hwC⟩
      have hsub' : ∀ x ∈ C, x ∈ rem.erase v := by
        intro x hx
        exact (List.mem_erase_of_ne (fun hxv => hvC (by rw [← hxv]; exact hx))).mpr (hsub x hx)
      rw [ih (rem.erase v) hsub'] at hsv
      cases hsv
    · intro hcon
      rcases List.exists_mem_of_ne_nil C hC with ⟨v, hv⟩
      have := hsub v hv
      rw [hcon] at this
      cases this

theorem allSorts_nil_of_cycle (g : Graph) (h : hasCycleWalk g) : allSorts g = [] := by
  rcases h with ⟨v, p, hne, hchain, hlast⟩
  have hvp : v ∈ p := by
    have := List.getLast?_eq_getLast p hne
    rw [this] at hlast
    injection hlast with hh
    rw [← hh]
    exact List.getLast_mem hne
  have hin : ∀ x ∈ p, ∃ w ∈ p, (w, x) ∈ g.edges := by
    intro x hx
    rcases List.getElem_of_mem hx with ⟨i, hi, hxi⟩
    rcases List.chain_iff_get.mp hchain with ⟨h0, hstep⟩
    cases i with
    | zero =>
      refine ⟨v, hvp, ?_⟩
      have := h0 (by omega)
      rw [List.get_eq_getElem] at this
      rw [← hxi]
      exact this
    | succ i =>
      refine ⟨p[i], List.getElem_mem _, ?_⟩
      have := hstep i (by omega)
      rw [List.get_eq_getElem, List.get_eq_getElem] at this
      rw [← hxi]
      exact this
  have hsub : ∀ x ∈ p, x ∈ vertsOf g.nodes.length g.edges := by
    intro x hx
    rcases hin x hx with ⟨w, _, hwx⟩
    exact (mem_vertsOf_of_endpoint g.nodes.length g.edges (w, x) hwx).2
  exact kahnAux_nil_of_cycle g.edges p hne hin _ _ hsub

theorem kahnAux_mem_self (edges : List (ℕ × ℕ)) (hord : ∀ e ∈ edges, e.1 < e.2) :
    ∀ rem : List ℕ, rem.Pairwise (· < ·) → rem ∈ kahnAux edges rem.length rem := by
  intro rem
  induction rem with
  | nil => simp [kahnAux]
  | cons a rem ih =>
    intro hpw
    rw [List.pairwise_cons] at hpw
    show a :: rem ∈ kahnAux edges (rem.length + 1) (a :: rem)
    unfold kahnAux
    rw [if_neg (by simp)]
    apply List.mem_flatMap.mpr
    refine ⟨a, ?_, ?_⟩
    · rw [List.mem_reverse]
      unfold sourcesOf
      apply List.mem_filter.mpr
      refine ⟨List.mem_cons_self _ _, ?_⟩
      have hasrc : (edges.any (fun e => e.2 == a && (a :: rem).contains e.1)) = false := by
        rw [List.any_eq_false]
        intro e he hcon
        rw [Bool.and_eq_true, beq_iff_eq] at hcon
        have hlt := hord e he
        have hmem : e.1 ∈ a :: rem := by simpa using hcon.2
        rcases List.mem_cons.mp hmem with h | h
        · omega
        · have := hpw.1 e.1 h
          omega
      rw [hasrc]
      rfl
    · rw [List.erase_cons_head]
      exact List.mem_map.mpr ⟨rem, ih hpw.2, rfl⟩

theorem allSorts_mem_identity (g : Graph)
    (hval : ∀ e ∈ g.edges, e.1 < g.nodes.length ∧ e.2 < g.nodes.length)
    (hord : topoOrdered g) :
    List.range g.nodes.length ∈ allSorts g := by
  unfold allSorts
  rw [vertsOf_eq_range _ _ hval]
  exact kahnAux_mem_self g.edges hord (List.range g.nodes.length) (List.pairwise_lt_range _)

/-! ## `all_topological_sorts` characterisation -/

theorem mapM_ok {α β : Type} (f : α → Except Unit β) (gf : α → β) :
    ∀ (l : List α), (∀ x ∈ l, f x = .ok (gf x)) → l.mapM f = .ok (l.map gf) := by
  intro l
  induction l with
  | nil => intro _; rfl
  | cons x l ih =>
    intro hall
    rw [List.mapM_cons, hall x (List.mem_cons_self _ _), ih (fun y hy =>
      hall y (List.mem_cons_of_mem _ hy))]
    rfl

theorem stripSort_ok (names : List String) (sort : List ℕ)
    (h : ∀ i ∈ sort, i < names.length) :
    stripSort names sort =
      .ok ((sort.map (fun i => names.getD i "")).filter (fun x => !(sentinel x))) := by
  unfold stripSort
  rw [if_pos]
  rw [List.all_eq_true]
  intro i hi
  exact decide_eq_true (h i hi)

theorem ats_bypass (g : Graph) (h : 12 ≤ g.nodes.length) :
    all_topological_sorts g = .ok [stripSentinels g.nodes] := by
  unfold all_topological_sorts
  rw [if_pos h]

theorem allSorts_mem_lt (g : Graph)
    (hval : ∀ e ∈ g.edges, e.1 < g.nodes.length ∧ e.2 < g.nodes.length)
    {s : List ℕ} (hs : s ∈ allSorts g) : ∀ i ∈ s, i < g.nodes.length := by
  have hperm : s.Perm (vertsOf g.nodes.length g.edges) :=
    kahnAux_perm _ g.edges _ s hs rfl
  intro i hi
  have : i ∈ vertsOf g.nodes.length g.edges := hperm.subset hi
  rw [vertsOf_eq_range _ _ hval] at this
  exact List.mem_range.mp this

theorem ats_small (g : Graph) (hlt : g.nodes.length < 12)
    (hval : ∀ e ∈ g.edges, e.1 < g.nodes.length ∧ e.2 < g.nodes.length)
    (hne : allSorts g ≠ []) :
    all_topological_sorts g =
      .ok (((allSorts g).map (fun s =>
        (s.map (fun i => g.nodes.getD i "")).filter (fun x => !(sentinel x)))).take 20) := by
  unfold all_topological_sorts
  rw [if_neg (by omega)]
  show (if allSorts g = [] then _ else _) = _
  rw [if_neg hne]
  rw [mapM_ok (stripSort g.nodes)
    (fun s => (s.map (fun i => g.nodes.getD i "")).filter (fun x => !(sentinel x)))
    (allSorts g)
    (fun s hs => stripSort_ok g.nodes s (allSorts_mem_lt g hval hs))]
  rfl

/-! ## Order-sensitive `t_eval_plan`: degenerate inputs, identity, bound -/

theorem t_eval_plan_nil_pred (gt : List String) (model : EmbedModel) :
    t_eval_plan [] gt model true = .error .emptyMax := by
  rw [t_eval_plan_true_raw]
  rfl

theorem t_eval_plan_nil_gt (pred : List String) (model : EmbedModel) (hp : pred ≠ []) :
    t_eval_plan pred [] model true = .error .divByZero := by
  rw [t_eval_plan_true_raw]
  rw [dp_max_eq _ _ (List.length_pos.mpr hp)]
  rfl

theorem t_eval_plan_self (L : List String) (model : EmbedModel) (hL : L ≠ []) :
    t_eval_plan L L model true = .ok ⟨1, 1, 1⟩ := by
  have hn : 1 ≤ L.length := List.length_pos.mpr hL
  have hid : ∀ i, i < L.length →
      mval (match_node L L model match_threshold_default) i = (i : ℤ) := by
    intro i hi
    unfold mval
    rw [match_node_self, mfind_identity hi]
    rfl
  have hlis : lisMatched (mval (match_node L L model match_threshold_default)) L.length =
      L.length := by
    apply le_antisymm (lisMatched_le_len _ _)
    have hchain : IndexChain (mval (match_node L L model match_threshold_default))
        (List.range L.length) := by
      refine ⟨List.pairwise_lt_range _, ?_, ?_⟩
      · intro j hj
        rw [hid j (List.mem_range.mp hj)]
        omega
      · rw [List.chain'_iff_pairwise]
        rw [List.pairwise_map]
        apply List.Pairwise.imp_of_mem ?_ (List.pairwise_lt_range L.length)
        intro a b ha hb hab
        rw [hid a (List.mem_range.mp ha), hid b (List.mem_range.mp hb)]
        exact_mod_cast hab
    have := lisMatched_ge_chain (mval (match_node L L model match_threshold_default))
      L.length (List.range L.length) hchain (fun j hj => List.mem_range.mp hj)
    simpa using this
  rw [t_eval_plan_true_spec L L model hL hL, hlis]
  have hmax : max 1 L.length = L.length := max_eq_right hn
  rw [hmax]
  have hdiv : ((L.length : ℕ) : ℚ) / ((L.length : ℕ) : ℚ) = 1 := by
    apply div_self
    have : (0 : ℚ) < (L.length : ℚ) := by exact_mod_cast hn
    linarith
  rw [hdiv]
  norm_num

theorem t_eval_plan_ok_f1_le_one (pred gt : List String) (model : EmbedModel)
    (r : ScoreResult) (h : t_eval_plan pred gt model true = .ok r) : r.f1_score ≤ 1 := by
  by_cases hp : pred = []
  · rw [hp, t_eval_plan_nil_pred] at h
    cases h
  by_cases hg : gt = []
  · rw [hg, t_eval_plan_nil_gt pred model hp] at h
    cases h
  rw [t_eval_plan_true_spec pred gt model hp hg] at h
  injection h with h
  set c := max 1 (lisMatched (mval (match_node pred gt model match_threshold_default))
    pred.length) with hc
  have hplen : 1 ≤ pred.length := List.length_pos.mpr hp
  have hglen : 1 ≤ gt.length := List.length_pos.mpr hg
  have hcp : c ≤ pred.length := by
    rw [hc]
    exact max_le hplen (lisMatched_le_len _ _)
  have hcg : c ≤ gt.length := by
    rw [hc]
    exact max_le hglen (lisMatched_le_gt pred gt model)
  have hc1 : 1 ≤ c := le_max_left _ _
  have hppos : (0 : ℚ) < (pred.length : ℚ) := by exact_mod_cast hplen
  have hgpos : (0 : ℚ) < (gt.length : ℚ) := by exact_mod_cast hglen
  have hrc : (0 : ℚ) < (c : ℚ) / (gt.length : ℚ) :=
    div_pos (by exact_mod_cast hc1) hgpos
  have hpc : (0 : ℚ) < (c : ℚ) / (pred.length : ℚ) :=
    div_pos (by exact_mod_cast hc1) hppos
  have hrle : (c : ℚ) / (gt.length : ℚ) ≤ 1 := by
    rw [div_le_one hgpos]
    exact_mod_cast hcg
  have hple : (c : ℚ) / (pred.length : ℚ) ≤ 1 := by
    rw [div_le_one hppos]
    exact_mod_cast hcp
  rw [← h]
  show 2 * ((c : ℚ) / (gt.length : ℚ)) * ((c : ℚ) / (pred.length : ℚ)) /
    ((c : ℚ) / (gt.length : ℚ) + (c : ℚ) / (pred.length : ℚ)) ≤ 1
  rw [div_le_one (by linarith)]
  nlinarith [mul_nonneg (le_of_lt hrc) (sub_nonneg.mpr hple),
    mul_nonneg (le_of_lt hpc) (sub_nonneg.mpr hrle)]

/-! ## `t_eval_nodes` -/

theorem t_eval_nodes_eq (pred gt : Graph) (model : EmbedModel) :
    t_eval_nodes pred gt model =
      match all_topological_sorts gt with
      | .error _ => .ok ⟨0, 0, 0⟩
      | .ok trajects =>
        trajects.foldlM (fun best gold => do
          let r ← t_eval_plan (stripSentinels pred.nodes) gold model true
          pure (if best.f1_score < r.f1_score then r else best)) ⟨0, 0, 0⟩ := rfl

theorem t_eval_nodes_ok (pred gt : Graph) (model : EmbedModel) (ts : List (List String))
    (h : all_topological_sorts gt = .ok ts) :
    t_eval_nodes pred gt model =
      ts.foldlM (fun best gold => do
        let r ← t_eval_plan (stripSentinels pred.nodes) gold model true
        pure (if best.f1_score < r.f1_score then r else best)) ⟨0, 0, 0⟩ := by
  rw [t_eval_nodes_eq, h]

theorem t_eval_nodes_err (pred gt : Graph) (model : EmbedModel)
    (h : all_topological_sorts gt = .error ()) :
    t_eval_nodes pred gt model = .ok ⟨0, 0, 0⟩ := by
  rw [t_eval_nodes_eq, h]

theorem ats_cyclic (g : Graph) (hlt : g.nodes.length < 12) (hcyc : hasCycleWalk g) :
    all_topological_sorts g = .error () := by
  unfold all_topological_sorts
  rw [if_neg (by omega)]
  show (if allSorts g = [] then _ else _) = _
  rw [if_pos (allSorts_nil_of_cycle g hcyc)]

theorem except_bind_ok {ε α β : Type} (a : α) (f : α → Except ε β) :
    (Except.ok a >>= f) = f a := rfl

theorem foldlM_keep (pred : List String) (model : EmbedModel) :
    ∀ (ts : List (List String)) (best : ScoreResult), best.f1_score = 1 →
    (∀ t ∈ ts, ∃ r, t_eval_plan pred t model true = .ok r ∧ r.f1_score ≤ 1) →
    ts.foldlM (fun best gold => do
      let r ← t_eval_plan pred gold model true
      pure (if best.f1_score < r.f1_score then r else best)) best = .ok best := by
  intro ts
  induction ts with
  | nil => intro best _ _; rfl
  | cons t ts ih =>
    intro best hb hall
    rcases hall t (List.mem_cons_self _ _) with ⟨r, hr, hle⟩
    rw [List.foldlM_cons]
    have hstep : (do
        let r ← t_eval_plan pred t model true
        pure (if best.f1_score < r.f1_score then r else best) :
        Except EvalErr ScoreResult) = .ok best := by
      rw [hr]
      show Except.ok (if best.f1_score < r.f1_score then r else best) = .ok best
      rw [if_neg (by rw [hb]; exact not_lt.mpr hle)]
    rw [hstep]
    rw [except_bind_ok]
    exact ih best hb (fun u hu => hall u (List.mem_cons_of_mem _ hu))

theorem foldlM_ok_le (pred : List String) (model : EmbedModel) :
    ∀ (ts : List (List String)) (best : ScoreResult), best.f1_score ≤ 1 →
    (∀ t ∈ ts, ∃ r, t_eval_plan pred t model true = .ok r ∧ r.f1_score ≤ 1) →
    ∃ b, ts.foldlM (fun best gold => do
      let r ← t_eval_plan pred gold model true
      pure (if best.f1_score < r.f1_score then r else best)) best = .ok b ∧
      b.f1_score ≤ 1 := by
  intro ts
  induction ts with
  | nil => intro best hb _; exact ⟨best, rfl, hb⟩
  | cons t ts ih =>
    intro best hb hall
    rcases hall t (List.mem_cons_self _ _) with ⟨r, hr, hle⟩
    rw [List.foldlM_cons]
    have hstep : (do
        let r ← t_eval_plan pred t model true
        pure (if best.f1_score < r.f1_score then r else best) :
        Except EvalErr ScoreResult) =
        .ok (if best.f1_score < r.f1_score then r else best) := by
      rw [hr]
      rfl
    rw [hstep, except_bind_ok]
    apply ih
    · by_cases hc : best.f1_score < r.f1_score
      · rw [if_pos hc]; exact hle
      · rw [if_neg hc]; exact hb
    · exact fun u hu => hall u (List.mem_cons_of_mem _ hu)

theorem foldlM_hit_one (pred : List String) (model : EmbedModel)
    (ts : List (List String)) (t0 : List String) (ht0 : t0 ∈ ts)
    (h1 : t_eval_plan pred t0 model true = .ok ⟨1, 1, 1⟩)
    (hall : ∀ t ∈ ts, ∃ r, t_eval_plan pred t model true = .ok r ∧ r.f1_score ≤ 1) :
    ∃ r : ScoreResult, ts.foldlM (fun best gold => do
      let r ← t_eval_plan pred gold model true
      pure (if best.f1_score < r.f1_score then r else best))
      (⟨0, 0, 0⟩ : ScoreResult) = .ok r ∧ r.f1_score = 1 := by
  obtain ⟨l1, l2, rfl⟩ := List.append_of_mem ht0
  rw [List.foldlM_append]
  obtain ⟨b1, hb1, hb1le⟩ := foldlM_ok_le pred model l1 ⟨0, 0, 0⟩ (by norm_num)
    (fun t ht => hall t (List.mem_append_left _ ht))
  rw [hb1, except_bind_ok]
  rw [List.foldlM_cons]
  have hstep : (do
      let r ← t_eval_plan pred t0 model true
      pure (if b1.f1_score < r.f1_score then r else b1) :
      Except EvalErr ScoreResult) =
      .ok (if b1.f1_score < (1 : ℚ) then ⟨1, 1, 1⟩ else b1) := by
    rw [h1]
    rfl
  rw [hstep, except_bind_ok]
  have hb2 : (if b1.f1_score < (1 : ℚ) then (⟨1, 1, 1⟩ : ScoreResult) else b1).f1_score
      = 1 := by
    by_cases hc : b1.f1_score < 1
    · rw [if_pos hc]
    · rw [if_neg hc]
      exact le_antisymm hb1le (not_lt.mp hc)
  refine ⟨_, ?_, hb2⟩
  exact foldlM_keep pred model l2 _ hb2 (fun u hu => hall u (by simp [hu]))

theorem map_getD_range {α : Type} (l : List α) (d : α) :
    (List.range l.length).map (fun i => l.getD i d) = l := by
  apply List.ext_getElem (by simp)
  intro i h1 h2
  simp only [List.getElem_map, List.getElem_range]
  rw [List.getD_eq_getElem?_getD, List.getElem?_eq_getElem h2]
  rfl

theorem stripped_perm (g : Graph)
    (hval : ∀ e ∈ g.edges, e.1 < g.nodes.length ∧ e.2 < g.nodes.length)
    {s : List ℕ} (hs : s ∈ allSorts g) :
    ((s.map (fun i => g.nodes.getD i "")).filter (fun x => !(sentinel x))).Perm
      (stripSentinels g.nodes) := by
  have hperm : s.Perm (vertsOf g.nodes.length g.edges) :=
    kahnAux_perm _ g.edges _ s hs rfl
  rw [vertsOf_eq_range _ _ hval] at hperm
  have h2 := (hperm.map (fun i => g.nodes.getD i "")).filter (fun x => !(sentinel x))
  rw [map_getD_range] at h2
  exact h2

theorem t_eval_nodes_self (g : Graph) (model : EmbedModel)
    (hval : ∀ e ∈ g.edges, e.1 < g.nodes.length ∧ e.2 < g.nodes.length)
    (hord : topoOrdered g) (hint : 1 ≤ interiorCount g)
    (hcap : 12 ≤ g.nodes.length ∨ (allSorts g).length ≤ 20) :
    ∃ r, t_eval_nodes g g model = .ok r ∧ r.f1_score = 1 := by
  have hLne : stripSentinels g.nodes ≠ [] := by
    intro hcon
    unfold interiorCount at hint
    rw [hcon] at hint
    simp at hint
  by_cases h12 : 12 ≤ g.nodes.length
  · refine ⟨⟨1, 1, 1⟩, ?_, rfl⟩
    rw [t_eval_nodes_ok g g model _ (ats_bypass g h12)]
    rw [List.foldlM_cons]
    have hstep : (do
        let r ← t_eval_plan (stripSentinels g.nodes) (stripSentinels g.nodes) model true
        pure (if (⟨0, 0, 0⟩ : ScoreResult).f1_score < r.f1_score then r
          else (⟨0, 0, 0⟩ : ScoreResult)) : Except EvalErr ScoreResult) = .ok ⟨1, 1, 1⟩ := by
      rw [t_eval_plan_self _ model hLne]
      show Except.ok (if (⟨0, 0, 0⟩ : ScoreResult).f1_score <
        (⟨1, 1, 1⟩ : ScoreResult).f1_score then (⟨1, 1, 1⟩ : ScoreResult)
        else (⟨0, 0, 0⟩ : ScoreResult)) = _
      rw [if_pos (by norm_num)]
    rw [hstep]
    rfl
  · push_neg at h12
    have hcap20 : (allSorts g).length ≤ 20 := by
      rcases hcap with h | h
      · omega
      · exact h
    have hid := allSorts_mem_identity g hval hord
    have hne : allSorts g ≠ [] := List.ne_nil_of_mem hid
    rw [t_eval_nodes_ok g g model _ (ats_small g h12 hval hne)]
    have htake : (((allSorts g).map (fun s =>
        (s.map (fun i => g.nodes.getD i "")).filter (fun x => !(sentinel x)))).take 20) =
        (allSorts g).map (fun s =>
          (s.map (fun i => g.nodes.getD i "")).filter (fun x => !(sentinel x))) :=
      List.take_of_length_le (by rw [List.length_map]; exact hcap20)
    rw [htake]
    have hident : ((List.range g.nodes.length).map (fun i => g.nodes.getD i "")).filter
        (fun x => !(sentinel x)) = stripSentinels g.nodes := by
      rw [map_getD_range]
      rfl
    apply foldlM_hit_one (stripSentinels g.nodes) model _ (stripSentinels g.nodes)
    · exact List.mem_map.mpr ⟨List.range g.nodes.length, hid, hident⟩
    · exact t_eval_plan_self _ model hLne
    · intro t ht
      rcases List.mem_map.mp ht with ⟨s, hsmem, hst⟩
      have hperm := stripped_perm g hval hsmem
      have htne : t ≠ [] := by
        intro hcon
        have hl := hperm.length_eq
        rw [hst, hcon] at hl
        simp at hl
        unfold interiorCount at hint
        omega
      have hok := t_eval_plan_true_spec (stripSentinels g.nodes) t model hLne htne
      exact ⟨_, hok, t_eval_plan_ok_f1_le_one _ _ _ _ hok⟩

/-! ## `t_eval_graph` -/

theorem hasKeyB_identity {n k : ℕ} (h : k < n) :
    hasKeyB ((List.range n).map (fun i : ℕ => (i, (i : ℤ)))) k = true := by
  rw [hasKeyB_iff]
  exact ⟨(k : ℤ), List.mem_map.mpr ⟨k, List.mem_range.mpr h, rfl⟩⟩

theorem mval_identity {n k : ℕ} (h : k < n) :
    mval ((List.range n).map (fun i : ℕ => (i, (i : ℤ)))) k = (k : ℤ) := by
  unfold mval
  rw [mfind_identity h]
  rfl

theorem filterMap_eq_self {α : Type} (f : α → Option α) :
    ∀ (l : List α), (∀ e ∈ l, f e = some e) → l.filterMap f = l := by
  intro l
  induction l with
  | nil => intro _; rfl
  | cons a l ih =>
    intro h
    rw [List.filterMap_cons, h a (List.mem_cons_self _ _),
      ih (fun e he => h e (List.mem_cons_of_mem _ he))]

theorem mappedEdges_id (n : ℕ) (edges : List (ℕ × ℕ))
    (hval : ∀ e ∈ edges, e.1 < n ∧ e.2 < n) :
    mappedEdges ((List.range n).map (fun i : ℕ => (i, (i : ℤ)))) edges = edges := by
  unfold mappedEdges
  apply filterMap_eq_self
  intro e he
  have h1 := (hval e he).1
  have h2 := (hval e he).2
  rw [if_pos (by rw [hasKeyB_identity h1, hasKeyB_identity h2]; rfl)]
  rw [if_pos ⟨by rw [mval_identity h1]; omega, by rw [mval_identity h2]; omega⟩]
  rw [mval_identity h1, mval_identity h2]
  simp

theorem t_eval_graph_self (g : Graph) (model : EmbedModel) (hnodes : g.nodes ≠ [])
    (hval : ∀ e ∈ g.edges, e.1 < g.nodes.length ∧ e.2 < g.nodes.length) :
    t_eval_graph g g model = ⟨1, 1, 1⟩ := by
  simp only [t_eval_graph]
  rw [match_node_self, mappedEdges_id _ _ hval]
  rw [if_neg (by simp [hnodes])]
  by_cases hR : reachPairs g.nodes.length g.edges = ∅
  · rw [if_pos ⟨hR, hR⟩]
  · rw [if_neg (fun hcon => hR hcon.1)]
    rw [Finset.inter_self]
    have hcard : ((reachPairs g.nodes.length g.edges).card : ℚ) ≠ 0 := by
      have hpos := Finset.card_pos.mpr (Finset.nonempty_iff_ne_empty.mpr hR)
      have : (0 : ℚ) < ((reachPairs g.nodes.length g.edges).card : ℚ) := by exact_mod_cast hpos
      linarith
    rw [if_pos hR]
    rw [div_self hcard]
    rw [if_neg (by norm_num)]
    norm_num

/-! ## Out-of-range candidate edges -/

theorem hasKeyB_match_node_iff (pred gt : List String) (model : EmbedModel) (thr : ℚ)
    (k : ℕ) : hasKeyB (match_node pred gt model thr) k = true ↔ k < pred.length := by
  constructor
  · intro h
    rcases hasKeyB_iff.mp h with ⟨v, hv⟩
    exact ((match_node_entry_facts pred gt model thr).1 _ hv).1
  · exact (match_node_entry_facts pred gt model thr).2.2.1 k

theorem mappedEdges_filter_bounds (m : List (ℕ × ℤ)) (n : ℕ)
    (hkey : ∀ k, hasKeyB m k = true ↔ k < n) :
    ∀ (edges : List (ℕ × ℕ)),
    mappedEdges m edges =
      mappedEdges m (edges.filter (fun e => decide (e.1 < n) && decide (e.2 < n))) := by
  intro edges
  induction edges with
  | nil => rfl
  | cons e es ih =>
    rw [List.filter_cons]
    by_cases h : e.1 < n ∧ e.2 < n
    · rw [if_pos (by rw [decide_eq_true h.1, decide_eq_true h.2]; rfl)]
      unfold mappedEdges
      rw [List.filterMap_cons, List.filterMap_cons]
      unfold mappedEdges at ih
      rw [ih]
    · rw [if_neg (by
        intro hcon
        rw [Bool.and_eq_true, decide_eq_true_eq, decide_eq_true_eq] at hcon
        exact h hcon)]
      unfold mappedEdges
      rw [List.filterMap_cons]
      have hfe : (if hasKeyB m e.1 && hasKeyB m e.2 then
          if mval m e.1 ≠ -1 ∧ mval m e.2 ≠ -1 then
            some ((mval m e.1).toNat, (mval m e.2).toNat)
          else none
        else none) = none := by
        rw [if_neg]
        intro hcon
        rw [Bool.and_eq_true, hkey e.1, hkey e.2] at hcon
        exact h hcon
      rw [hfe]
      unfold mappedEdges at ih
      rw [ih]

/-- The code's guarded precision/recall agree with the plain quotient
`|S ∩ T| / |S|`: on an empty `S` the quotient is `0 / 0 = 0` in `ℚ`, which is
what the guard returns. -/
theorem guarded_div_eq (S T : Finset (ℕ × ℕ)) :
    (if S ≠ ∅ then ((S ∩ T).card : ℚ) / (S.card : ℚ) else 0) =
      ((S ∩ T).card : ℚ) / (S.card : ℚ) := by
  by_cases h : S = ∅
  · rw [if_neg (by simpa using h), h]
    simp
  · rw [if_pos h]

theorem guarded_div_eq2 (S T : Finset (ℕ × ℕ)) :
    (if T ≠ ∅ then ((S ∩ T).card : ℚ) / (T.card : ℚ) else 0) =
      ((S ∩ T).card : ℚ) / (T.card : ℚ) := by
  by_cases h : T = ∅
  · rw [if_neg (by simpa using h), h]
    simp
  · rw [if_pos h]

/-! ## The claims -/

/-- C1: scoring a well-formed graph against itself always gives `f1_score = 1`
through `t_eval_graph`; through `t_eval_nodes` the same holds only under the
additional hypotheses that the node list is topologically ordered, at least
one interior node exists, and the input ordering is among the kept reference
orderings — either the bypass fires (at least 12 nodes) or the graph has at
most 20 linearizations.  networkx emits the input order LAST, so with more
than 20 linearizations the `[:20]` truncation drops it.  (The original claim,
quantified over every well-formed graph, is refuted by
`claim_C1_counterexample`.) -/
theorem claim_C1 (g : Graph) (model : EmbedModel) (hwf : WellFormedGraph g) :
    (t_eval_graph g g model).f1_score = 1 ∧
    (topoOrdered g → 1 ≤ interiorCount g →
      12 ≤ g.nodes.length ∨ (allSorts g).length ≤ 20 →
      ∃ r, t_eval_nodes g g model = .ok r ∧ r.f1_score = 1) := by
  have hnodes : g.nodes ≠ [] := by
    intro hcon
    have h := hwf.1
    rw [hcon] at h
    exact Option.noConfusion h
  refine ⟨?_, ?_⟩
  · rw [t_eval_graph_self g model hnodes hwf.2.2.1]
  · intro hord hint hcap
    exact t_eval_nodes_self g model hwf.2.2.1 hord hint hcap

theorem claim_C1_witness :
    (t_eval_graph exG_chain exG_chain zeroModel).f1_score = 1 ∧
    ∃ r, t_eval_nodes exG_chain exG_chain zeroModel = .ok r ∧ r.f1_score = 1 :=
  ⟨(claim_C1 exG_chain zeroModel (by with_unfolding_all decide)).1,
   (claim_C1 exG_chain zeroModel (by with_unfolding_all decide)).2
     (by decide) (by with_unfolding_all decide)
     (Or.inr (by with_unfolding_all decide))⟩

set_option maxRecDepth 40000 in
theorem claim_C1_counterexample :
    (WellFormedGraph exG_misordered ∧
      t_eval_nodes exG_misordered exG_misordered zeroModel = .ok ⟨1/2, 1/2, 1/2⟩) ∧
    (WellFormedGraph exG_fan ∧ topoOrdered exG_fan ∧ 20 < (allSorts exG_fan).length ∧
      t_eval_nodes exG_fan exG_fan zeroModel = .ok ⟨3/5, 3/5, 3/5⟩) ∧
    ((1 : ℚ)/2 ≠ 1 ∧ (3 : ℚ)/5 ≠ 1) :=
  ⟨⟨by with_unfolding_all decide, by with_unfolding_all decide⟩,
   ⟨by with_unfolding_all decide, by decide, by with_unfolding_all decide,
    by with_unfolding_all decide⟩,
   by norm_num⟩

/-- C2: `all_topological_sorts` bypasses enumeration exactly when the TOTAL
node count (sentinels included) is at least 12, not when the interior count
is; with 12 or more interior nodes the bypass indeed fires (the interior count
is at most the total), and below 12 total nodes the result is all
linearizations, named and sentinel-stripped, truncated to the first 20.  The
original claim's "exactly when the interior count is ≥ 12" is refuted by
`claim_C2_counterexample`. -/
theorem claim_C2 (g : Graph) :
    (12 ≤ g.nodes.length → all_topological_sorts g = .ok [stripSentinels g.nodes]) ∧
    (12 ≤ interiorCount g → all_topological_sorts g = .ok [stripSentinels g.nodes]) ∧
    (g.nodes.length < 12 →
      (∀ e ∈ g.edges, e.1 < g.nodes.length ∧ e.2 < g.nodes.length) →
      allSorts g ≠ [] →
      all_topological_sorts g = .ok (((allSorts g).map (fun s =>
        (s.map (fun i => g.nodes.getD i "")).filter (fun x => !(sentinel x)))).take 20)) := by
  refine ⟨ats_bypass g, ?_, ats_small g⟩
  intro h
  apply ats_bypass
  have hle : interiorCount g ≤ g.nodes.length := List.length_filter_le _ _
  omega

theorem claim_C2_counterexample :
    interiorCount exG_bypass = 10 ∧ exG_bypass.nodes.length = 12 ∧
    all_topological_sorts exG_bypass = .ok [stripSentinels exG_bypass.nodes] ∧
    (allSorts exG_bypass).length = 2 :=
  ⟨by with_unfolding_all decide, by decide, by with_unfolding_all decide,
   by with_unfolding_all decide⟩

/-- C3: in order-sensitive mode on non-empty inputs, `correct` is NOT the LIS
length of the matched reference indices but its maximum with 1 (the dp array
is initialised to ones, so even a fully unmatched candidate scores
`correct = 1`); precision, recall and f1 then follow the claimed quotient and
harmonic-mean formulas.  The claim's zero-match clause is refuted by
`claim_C3_counterexample`. -/
theorem claim_C3 (pred gt : List String) (model : EmbedModel)
    (hp : pred ≠ []) (hg : gt ≠ []) :
    ∃ c : ℕ,
      c = max 1 (lisMatched (mval (match_node pred gt model match_threshold_default))
        pred.length) ∧
      t_eval_plan pred gt model true = .ok ⟨(c : ℚ) / (pred.length : ℚ),
        (c : ℚ) / (gt.length : ℚ),
        2 * ((c : ℚ) / (gt.length : ℚ)) * ((c : ℚ) / (pred.length : ℚ)) /
          ((c : ℚ) / (gt.length : ℚ) + (c : ℚ) / (pred.length : ℚ))⟩ :=
  ⟨_, rfl, t_eval_plan_true_spec pred gt model hp hg⟩

theorem claim_C3_witness :
    ∃ c : ℕ,
      c = max 1 (lisMatched (mval (match_node ["a"] ["b"] zeroModel
        match_threshold_default)) (["a"] : List String).length) ∧
      t_eval_plan ["a"] ["b"] zeroModel true =
        .ok ⟨(c : ℚ) / ((["a"] : List String).length : ℚ),
          (c : ℚ) / ((["b"] : List String).length : ℚ),
          2 * ((c : ℚ) / ((["b"] : List String).length : ℚ)) *
            ((c : ℚ) / ((["a"] : List String).length : ℚ)) /
            ((c : ℚ) / ((["b"] : List String).length : ℚ) +
              (c : ℚ) / ((["a"] : List String).length : ℚ))⟩ :=
  claim_C3 ["a"] ["b"] zeroModel (by decide) (by decide)

theorem claim_C3_counterexample :
    mval (match_node ["a"] ["b"] zeroModel match_threshold_default) 0 = -1 ∧
    lisMatched (mval (match_node ["a"] ["b"] zeroModel match_threshold_default)) 1 = 0 ∧
    t_eval_plan ["a"] ["b"] zeroModel true = .ok ⟨1, 1, 1⟩ :=
  ⟨by with_unfolding_all decide, by with_unfolding_all decide,
   by with_unfolding_all decide⟩

/-- C4: `t_eval_graph` returns the zero score when either graph has no nodes;
the unit score when both reachability closures are empty; and otherwise
`precision = |Rp ∩ Rg| / |Rp|`, `recall = |Rp ∩ Rg| / |Rg|` (the code's
emptiness guards coincide with these quotients because `x / 0 = 0` in `ℚ`),
with `f1_score` zero when either is zero and the harmonic mean otherwise. -/
theorem claim_C4 (pred gt : Graph) (model : EmbedModel) :
    ∃ Rp Rg : Finset (ℕ × ℕ),
      Rp = reachPairs gt.nodes.length (mappedEdges (match_node pred.nodes gt.nodes model
        match_threshold_default) pred.edges) ∧
      Rg = reachPairs gt.nodes.length gt.edges ∧
      (pred.nodes = [] ∨ gt.nodes = [] → t_eval_graph pred gt model = ⟨0, 0, 0⟩) ∧
      (pred.nodes ≠ [] → gt.nodes ≠ [] →
        (Rp = ∅ ∧ Rg = ∅ → t_eval_graph pred gt model = ⟨1, 1, 1⟩) ∧
        (¬(Rp = ∅ ∧ Rg = ∅) →
          t_eval_graph pred gt model =
            ⟨((Rp ∩ Rg).card : ℚ) / (Rp.card : ℚ),
             ((Rp ∩ Rg).card : ℚ) / (Rg.card : ℚ),
             if ((Rp ∩ Rg).card : ℚ) / (Rp.card : ℚ) = 0 ∨
                 ((Rp ∩ Rg).card : ℚ) / (Rg.card : ℚ) = 0 then 0
             else 2 * (((Rp ∩ Rg).card : ℚ) / (Rp.card : ℚ)) *
               (((Rp ∩ Rg).card : ℚ) / (Rg.card : ℚ)) /
               (((Rp ∩ Rg).card : ℚ) / (Rp.card : ℚ) +
                 ((Rp ∩ Rg).card : ℚ) / (Rg.card : ℚ))⟩)) := by
  refine ⟨_, _, rfl, rfl, ?_, ?_⟩
  · intro h
    simp only [t_eval_graph]
    rw [if_pos h]
  · intro hp hg
    refine ⟨?_, ?_⟩
    · intro hboth
      simp only [t_eval_graph]
      rw [if_neg (by simp [hp, hg])]
      rw [if_pos hboth]
    · intro hnot
      simp only [t_eval_graph]
      rw [if_neg (by simp [hp, hg])]
      rw [if_neg hnot]
      rw [guarded_div_eq, guarded_div_eq2]

/-- C5: when the reference graph is cyclic and its node count is below the
bypass bound (so enumeration actually runs and fails), `t_eval_nodes` catches
the failure locally and returns the zero score instead of propagating an
error. -/
theorem claim_C5 (pred gt : Graph) (model : EmbedModel)
    (hlen : gt.nodes.length < 12) (hcyc : hasCycleWalk gt) :
    t_eval_nodes pred gt model = .ok ⟨0, 0, 0⟩ :=
  t_eval_nodes_err pred gt model (ats_cyclic gt hlen hcyc)

theorem claim_C5_witness :
    t_eval_nodes exG_chain exG_cyclic zeroModel = .ok ⟨0, 0, 0⟩ :=
  claim_C5 exG_chain exG_cyclic zeroModel (by decide)
    ⟨1, [2, 1], by decide,
     List.Chain.cons (by decide) (List.Chain.cons (by decide) List.Chain.nil),
     by decide⟩

/-- C6: a candidate index that the exact-match pass left unbound (its label is
byte-identical to no still-available reference label) and whose clamped
similarity to every reference label is strictly below the threshold is mapped
to `-1`. -/
theorem claim_C6 (pred gt : List String) (model : EmbedModel) (i : ℕ)
    (hi : i < pred.length)
    (hnoexact : hasKeyB (exactPass pred gt).1 i = false)
    (hsim : ∀ j, j < gt.length →
      clampNonneg (model (pred.getD i "") (gt.getD j "")) < match_threshold_default) :
    mval (match_node pred gt model match_threshold_default) i = -1 := by
  unfold mval
  rw [match_node_unmatched_neg pred gt model match_threshold_default i hi hnoexact hsim]
  rfl

theorem claim_C6_witness :
    mval (match_node ["x"] ["y"] zeroModel match_threshold_default) 0 = -1 :=
  claim_C6 ["x"] ["y"] zeroModel 0 (by decide) (by with_unfolding_all decide)
    (fun j hj => by
      have hj0 : j = 0 := by simp at hj; omega
      subst hj0
      with_unfolding_all decide)

/-- C7: on verbatim-identical label lists the whole correspondence is resolved
by the exact-match pass, no `encode` call is made, and the result is
independent of the embedding model. -/
theorem claim_C7 (L : List String) (model model' : EmbedModel) (thr : ℚ) :
    match_node L L model thr = (exactPass L L).1 ∧
    match_node_encode_calls L L = 0 ∧
    match_node L L model thr = match_node L L model' thr := by
  refine ⟨?_, match_node_encode_calls_self L, ?_⟩
  · rw [match_node_self, exactPass_self]
  · rw [match_node_self, match_node_self]

/-- C8: the correspondence returned by `match_node` is total over candidate
indices (every index below the candidate length is a key, keys never exceed
that range) and injective over its non-`-1` values. -/
theorem claim_C8 (pred gt : List String) (model : EmbedModel) :
    (∀ k, k < pred.length →
      hasKeyB (match_node pred gt model match_threshold_default) k = true) ∧
    (∀ e ∈ match_node pred gt model match_threshold_default, e.1 < pred.length) ∧
    (∀ e ∈ match_node pred gt model match_threshold_default,
      ∀ f ∈ match_node pred gt model match_threshold_default,
      e.2 = f.2 → e.2 ≠ -1 → e = f) := by
  obtain ⟨h1, _, h3, h4⟩ := match_node_entry_facts pred gt model match_threshold_default
  exact ⟨h3, fun e he => (h1 e he).1, h4⟩

/-- C9: order-sensitive `t_eval_plan` is not total: an empty candidate raises
(`max` over the empty dp array), a non-empty candidate against an empty
reference raises a division by zero computing recall, and `t_eval_nodes` on
two sentinel-only graphs propagates the empty-candidate error instead of
degrading to a score. -/
theorem claim_C9 (pred gt : List String) (model : EmbedModel) (hp : pred ≠ []) :
    t_eval_plan [] gt model true = .error .emptyMax ∧
    t_eval_plan pred [] model true = .error .divByZero ∧
    t_eval_nodes exG_sentinelsOnly exG_sentinelsOnly zeroModel = .error .emptyMax :=
  ⟨t_eval_plan_nil_pred gt model, t_eval_plan_nil_gt pred model hp,
   by with_unfolding_all decide⟩

theorem claim_C9_witness :
    t_eval_plan [] ["g"] zeroModel true = .error .emptyMax ∧
    t_eval_plan ["p"] [] zeroModel true = .error .divByZero ∧
    t_eval_nodes exG_sentinelsOnly exG_sentinelsOnly zeroModel = .error .emptyMax :=
  claim_C9 ["p"] ["g"] zeroModel (by decide)

/-- C10: a candidate edge with an endpoint outside the candidate node index
range is silently dropped by the edge-mapping phase (the correspondence's keys
are exactly the valid candidate indices), so `t_eval_graph` computes the same
score as on the pre-filtered edge list and never raises. -/
theorem claim_C10 (nodes : List String) (edges : List (ℕ × ℕ)) (gt : Graph)
    (model : EmbedModel) :
    mappedEdges (match_node nodes gt.nodes model match_threshold_default) edges =
      mappedEdges (match_node nodes gt.nodes model match_threshold_default)
        (edges.filter (fun e => decide (e.1 < nodes.length) && decide (e.2 < nodes.length))) ∧
    t_eval_graph ⟨nodes, edges⟩ gt model =
      t_eval_graph ⟨nodes, edges.filter (fun e =>
        decide (e.1 < nodes.length) && decide (e.2 < nodes.length))⟩ gt model := by
  have h1 := mappedEdges_filter_bounds
    (match_node nodes gt.nodes model match_threshold_default) nodes.length
    (hasKeyB_match_node_iff nodes gt.nodes model match_threshold_default) edges
  refine ⟨h1, ?_⟩
  simp only [t_eval_graph]
  rw [h1]
